import Mathlib

/-!
Verification of the `goavl` AVL tree implementation (`avl.go`).

The Go code is shallowly embedded: pointers to `treeNode` become an inductive
type with a `nil` constructor, the Go `int` height field becomes `Int`, the
`error` return values become a `Bool` flag (`true` = non-nil error), and the
generic `Item` interface (an `Equal`/`Less` pair assumed to form a consistent
strict total order) becomes a type `α` with a `LinearOrder` instance, with
`Equal := (· = ·)` and `Less := (· < ·)`.

Each definition mirrors the corresponding Go function line by line.  Places
where the Go code would dereference a nil pointer (and panic) are completed
arbitrarily and marked; the `...Chk` variants below return `none` exactly at
those points, and the development proves they never fire on trees reachable
from `NewTree` through `Insert`/`Delete`.
-/

set_option linter.unusedVariables false
set_option linter.unusedSectionVars false
set_option linter.unreachableTactic false
set_option linter.unusedTactic false

namespace goavl

/-- Go helper `func max(a, b int) int` from `avl.go`. -/
def max (a b : Int) : Int := if a > b then a else b

/-- `treeNode` from `avl.go`: a key, two (possibly absent) children and the
cached subtree height `h`.  A Go nil pointer is the `nil` constructor. -/
inductive treeNode (α : Type) where
  | nil : treeNode α
  | node (key : α) (left right : treeNode α) (h : Int)
deriving DecidableEq

variable {α : Type}

/-- `(n *treeNode) height()`: 0 for an absent node, else the cached field. -/
def height : treeNode α → Int
  | .nil => 0
  | .node _ _ _ hh => hh

/-- `(n *treeNode) balanceFactor()`: 0 for an absent node, else
`height(left) - height(right)` (cached heights). -/
def balanceFactor : treeNode α → Int
  | .nil => 0
  | .node _ l r _ => height l - height r

/-- `(n *treeNode) subtreeRotateRight()`.  Go dereferences `n.left`
unconditionally and would panic when it is absent; the fallback arm returns
the input unchanged and is shown unreachable on reachable trees (claim C8). -/
def subtreeRotateRight : treeNode α → treeNode α
  | .node k (.node mk ml mr _) r _ =>
      let n2 : treeNode α := .node k mr r (1 + max (height mr) (height r))
      .node mk ml n2 (1 + max (height ml) (height n2))
  | t => t

/-- `(n *treeNode) subtreeRotateLeft()`, the mirror image. -/
def subtreeRotateLeft : treeNode α → treeNode α
  | .node k l (.node mk ml mr _) _ =>
      let n2 : treeNode α := .node k l ml (1 + max (height l) (height ml))
      .node mk n2 mr (1 + max (height n2) (height mr))
  | t => t

variable [LinearOrder α]

/-- Steps 2 and 3 of `subtreeInsertNode` (`avl.go` lines 107-128): recompute
the height of the node whose children are `l`, `r`, then resolve the four
rebalancing cases by comparing the inserted `key` with the child's key.
The `nil` arms correspond to Go reading `n.left.key` (resp. `n.right.key`)
from an absent child, which would panic; see `insertFixupChk`. -/
def insertFixup (key k : α) (l r : treeNode α) : treeNode α :=
  let hh := 1 + max (height l) (height r)
  let bal := height l - height r
  if bal > 1 then
    match l with
    | .node lk _ _ _ =>
        if key < lk then subtreeRotateRight (.node k l r hh)
        else subtreeRotateRight (.node k (subtreeRotateLeft l) r hh)
    | .nil => .node k l r hh
  else if bal < -1 then
    match r with
    | .node rk _ _ _ =>
        if key < rk then subtreeRotateLeft (.node k l (subtreeRotateRight r) hh)
        else subtreeRotateLeft (.node k l r hh)
    | .nil => .node k l r hh
  else .node k l r hh

/-- `(n *treeNode) subtreeInsertNode(key)`: BST insertion (duplicates are
rejected with an error, leaving the node untouched), followed by
`insertFixup`.  The `Bool` is `true` iff the Go error is non-nil; note the
fixup does run when an error bubbles up from a child, exactly as in Go. -/
def subtreeInsertNode : treeNode α → α → treeNode α × Bool
  | .nil, key => (.node key .nil .nil 1, false)
  | .node k l r hh, key =>
    if key < k then
      let p := subtreeInsertNode l key
      (insertFixup key k p.1 r, p.2)
    else if key = k then
      (.node k l r hh, true)
    else
      let p := subtreeInsertNode r key
      (insertFixup key k l p.1, p.2)

/-- `(n *treeNode) subtreeMin()`: walk `left` pointers to the end.  Go would
dereference `curr.left` on a nil receiver; callers guarantee a node. -/
def subtreeMin : treeNode α → treeNode α
  | .nil => .nil
  | .node k .nil r hh => .node k .nil r hh
  | .node _ (.node lk ll lr lh) _ _ => subtreeMin (.node lk ll lr lh)

/-- `(n *treeNode) subtreeMax()`: walk `right` pointers to the end. -/
def subtreeMax : treeNode α → treeNode α
  | .nil => .nil
  | .node k l .nil hh => .node k l .nil hh
  | .node _ _ (.node rk rl rr rh) _ => subtreeMax (.node rk rl rr rh)

/-- Steps 2 and 3 of `subtreeDeleteNode` (`avl.go` lines 176-199): recompute
the height, then resolve the four rebalancing cases using the children's
balance factors (`>= 0` / `<= 0` as in the Go source). -/
def deleteFixup (k : α) (l r : treeNode α) : treeNode α :=
  let hh := 1 + max (height l) (height r)
  let bal := height l - height r
  if bal > 1 then
    if balanceFactor l ≥ 0 then subtreeRotateRight (.node k l r hh)
    else subtreeRotateRight (.node k (subtreeRotateLeft l) r hh)
  else if bal < -1 then
    if balanceFactor r ≤ 0 then subtreeRotateLeft (.node k l r hh)
    else subtreeRotateLeft (.node k l (subtreeRotateRight r) hh)
  else .node k l r hh

/-- `(n *treeNode) subtreeDeleteNode(key)`: BST deletion (an absent subtree
reports a "key not found" error), splicing the single child or the in-order
successor as in the Go source, then `deleteFixup` on the surviving node.
When the node had no children at all, Go returns nil before any height work.
The fallback arm for `subtreeMin` returning `nil` is unreachable, since
`subtreeMin` of a node is always a node. -/
def subtreeDeleteNode : treeNode α → α → treeNode α × Bool
  | .nil, _ => (.nil, true)
  | .node k l r hh, key =>
    if key < k then
      let p := subtreeDeleteNode l key
      (deleteFixup k p.1 r, p.2)
    else if key = k then
      match l, r with
      | .nil, .nil => (.nil, false)
      | .nil, .node ck cl cr _ => (deleteFixup ck cl cr, false)
      | .node ck cl cr _, .nil => (deleteFixup ck cl cr, false)
      | .node lk ll lr lh, .node rk rl rr rh =>
        match subtreeMin (.node rk rl rr rh) with
        | .node mk _ _ _ =>
          let p := subtreeDeleteNode (.node rk rl rr rh) mk
          (deleteFixup mk (.node lk ll lr lh) p.1, p.2)
        | .nil => (.node k l r hh, false)
    else
      let p := subtreeDeleteNode r key
      (deleteFixup k l p.1, p.2)

/-- `(n *treeNode) subtreeInOrder()`: left, self, right. -/
def subtreeInOrder : treeNode α → List α
  | .nil => []
  | .node k l r _ => subtreeInOrder l ++ [k] ++ subtreeInOrder r

/-- `(n *treeNode) subtreePreOrder()`: self, left, right. -/
def subtreePreOrder : treeNode α → List α
  | .nil => []
  | .node k l r _ => [k] ++ subtreePreOrder l ++ subtreePreOrder r

/-- `Tree` from `avl.go`: the public facade owning the root and a size
counter (a Go `int`, embedded as `Int`). -/
structure Tree (α : Type) where
  root : treeNode α
  size : Int

/-- `NewTree()`: the empty tree. -/
def NewTree : Tree α := ⟨.nil, 0⟩

/-- `(t *Tree) Insert(key)`: the root is replaced by the subtree result in
all cases; the size counter is incremented only when the error is nil.
The returned `Bool` is `true` iff the Go error is non-nil. -/
def Tree.Insert (t : Tree α) (key : α) : Tree α × Bool :=
  let p := subtreeInsertNode t.root key
  if p.2 then (⟨p.1, t.size⟩, true) else (⟨p.1, t.size + 1⟩, false)

/-- `(t *Tree) Delete(key)`: mirror of `Insert` with a decrement. -/
def Tree.Delete (t : Tree α) (key : α) : Tree α × Bool :=
  let p := subtreeDeleteNode t.root key
  if p.2 then (⟨p.1, t.size⟩, true) else (⟨p.1, t.size - 1⟩, false)

/-- `(t *Tree) Size()`. -/
def Tree.Size (t : Tree α) : Int := t.size

/-- `(t *Tree) Min()`: empty-tree error on a nil root, else the key of
`subtreeMin` from the root.  The `(none, false)` arm is unreachable since
`subtreeMin` of a node is a node. -/
def Tree.Min (t : Tree α) : Option α × Bool :=
  match t.root with
  | .nil => (none, true)
  | .node k l r hh =>
    match subtreeMin (.node k l r hh) with
    | .node m0 _ _ _ => (some m0, false)
    | .nil => (none, false)

/-- `(t *Tree) Max()`: mirror of `Min`. -/
def Tree.Max (t : Tree α) : Option α × Bool :=
  match t.root with
  | .nil => (none, true)
  | .node k l r hh =>
    match subtreeMax (.node k l r hh) with
    | .node m0 _ _ _ => (some m0, false)
    | .nil => (none, false)

/-- `(t *Tree) Height()`: cached height of the root, 0 when empty. -/
def Tree.Height (t : Tree α) : Int := height t.root

/-- `(t *Tree) InOrder()`. -/
def Tree.InOrder (t : Tree α) : List α := subtreeInOrder t.root

/-- `(t *Tree) PreOrder()`. -/
def Tree.PreOrder (t : Tree α) : List α := subtreePreOrder t.root

/-- Trees reachable from `NewTree()` by any sequence of `Insert` and
`Delete` calls, successful or failed. -/
inductive Reachable : Tree α → Prop where
  | new : Reachable NewTree
  | ins {t : Tree α} {k : α} : Reachable t → Reachable (t.Insert k).1
  | del {t : Tree α} {k : α} : Reachable t → Reachable (t.Delete k).1

/-- Per-node height bookkeeping invariant of the spec: every cached height
equals `1 + max(height(left), height(right))`. -/
def HeightsOk : treeNode α → Prop
  | .nil => True
  | .node _ l r hh => hh = 1 + max (height l) (height r) ∧ HeightsOk l ∧ HeightsOk r

/-- Per-node AVL balance invariant of the spec: the balance factor
`height(left) - height(right)` lies in `{-1, 0, 1}` at every node. -/
def Balanced : treeNode α → Prop
  | .nil => True
  | .node _ l r _ =>
      (height l - height r = -1 ∨ height l - height r = 0 ∨ height l - height r = 1) ∧
      Balanced l ∧ Balanced r

instance HeightsOk.dec : (t : treeNode α) → Decidable (HeightsOk t)
  | .nil => .isTrue trivial
  | .node _ l r hh =>
      have : Decidable (HeightsOk l) := HeightsOk.dec l
      have : Decidable (HeightsOk r) := HeightsOk.dec r
      show Decidable (_ ∧ _ ∧ _) from inferInstance

instance Balanced.dec : (t : treeNode α) → Decidable (Balanced t)
  | .nil => .isTrue trivial
  | .node _ l r _ =>
      have : Decidable (Balanced l) := Balanced.dec l
      have : Decidable (Balanced r) := Balanced.dec r
      show Decidable (_ ∧ _ ∧ _) from inferInstance

/-- Checked right rotation: `some` of the rotation result when the receiver's
left child is present, `none` exactly when Go's unguarded `n.left`
dereference would hit an absent node. -/
def subtreeRotateRightChk (t : treeNode α) : Option (treeNode α) :=
  match t with
  | .node _ (.node _ _ _ _) _ _ => some (subtreeRotateRight t)
  | _ => none

/-- Checked left rotation: `none` exactly when `n.right` is absent. -/
def subtreeRotateLeftChk (t : treeNode α) : Option (treeNode α) :=
  match t with
  | .node _ _ (.node _ _ _ _) _ => some (subtreeRotateLeft t)
  | _ => none

/-- `insertFixup` with every child dereference of the rebalancing path
checked: `none` when Go would read `n.left.key` / `n.right.key` from an
absent child or rotate a node whose pivot child is absent. -/
def insertFixupChk (key k : α) (l r : treeNode α) : Option (treeNode α) :=
  let hh := 1 + max (height l) (height r)
  let bal := height l - height r
  if bal > 1 then
    match l with
    | .node lk _ _ _ =>
        if key < lk then subtreeRotateRightChk (.node k l r hh)
        else do
          let l2 ← subtreeRotateLeftChk l
          subtreeRotateRightChk (.node k l2 r hh)
    | .nil => none
  else if bal < -1 then
    match r with
    | .node rk _ _ _ =>
        if key < rk then do
          let r2 ← subtreeRotateRightChk r
          subtreeRotateLeftChk (.node k l r2 hh)
        else subtreeRotateLeftChk (.node k l r hh)
    | .nil => none
  else some (.node k l r hh)

/-- `subtreeInsertNode` with checked rebalancing. -/
def subtreeInsertNodeChk : treeNode α → α → Option (treeNode α × Bool)
  | .nil, key => some (.node key .nil .nil 1, false)
  | .node k l r hh, key =>
    if key < k then do
      let p ← subtreeInsertNodeChk l key
      let f ← insertFixupChk key k p.1 r
      pure (f, p.2)
    else if key = k then some (.node k l r hh, true)
    else do
      let p ← subtreeInsertNodeChk r key
      let f ← insertFixupChk key k l p.1
      pure (f, p.2)

/-- `deleteFixup` with checked rotations (the balance-factor guards
themselves are nil-safe in Go, so only the rotations are checked). -/
def deleteFixupChk (k : α) (l r : treeNode α) : Option (treeNode α) :=
  let hh := 1 + max (height l) (height r)
  let bal := height l - height r
  if bal > 1 then
    if balanceFactor l ≥ 0 then subtreeRotateRightChk (.node k l r hh)
    else do
      let l2 ← subtreeRotateLeftChk l
      subtreeRotateRightChk (.node k l2 r hh)
  else if bal < -1 then
    if balanceFactor r ≤ 0 then subtreeRotateLeftChk (.node k l r hh)
    else do
      let r2 ← subtreeRotateRightChk r
      subtreeRotateLeftChk (.node k l r2 hh)
  else some (.node k l r hh)

/-- `subtreeDeleteNode` with checked rebalancing. -/
def subtreeDeleteNodeChk : treeNode α → α → Option (treeNode α × Bool)
  | .nil, _ => some (.nil, true)
  | .node k l r hh, key =>
    if key < k then do
      let p ← subtreeDeleteNodeChk l key
      let f ← deleteFixupChk k p.1 r
      pure (f, p.2)
    else if key = k then
      match l, r with
      | .nil, .nil => some (.nil, false)
      | .nil, .node ck cl cr _ => do
          let f ← deleteFixupChk ck cl cr
          pure (f, false)
      | .node ck cl cr _, .nil => do
          let f ← deleteFixupChk ck cl cr
          pure (f, false)
      | .node lk ll lr lh, .node rk rl rr rh =>
        match subtreeMin (.node rk rl rr rh) with
        | .node mk _ _ _ => do
          let p ← subtreeDeleteNodeChk (.node rk rl rr rh) mk
          let f ← deleteFixupChk mk (.node lk ll lr lh) p.1
          pure (f, p.2)
        | .nil => some (.node k l r hh, false)
    else do
      let p ← subtreeDeleteNodeChk r key
      let f ← deleteFixupChk k l p.1
      pure (f, p.2)

/-- One public mutating call: an `Insert` or a `Delete` of a key. -/
inductive Op (α : Type) where
  | ins : α → Op α
  | del : α → Op α

/-- Apply one call to a tree, keeping the resulting tree (the Go methods
mutate the receiver; the error only reports success or failure). -/
def applyOp (t : Tree α) : Op α → Tree α
  | .ins k => (t.Insert k).1
  | .del k => (t.Delete k).1

/-- Run a whole call sequence from a fresh empty tree. -/
def runOps (ops : List (Op α)) : Tree α := ops.foldl applyOp NewTree

/-- Reference semantics of one call on a plain set of keys: an insert adds
the key (successful exactly when it was absent), a delete removes it
(successful exactly when it was present). -/
def applyOpSet (s : Finset α) : Op α → Finset α
  | .ins k => insert k s
  | .del k => s.erase k

/-- The set of keys successfully inserted and not subsequently successfully
deleted by a call sequence. -/
def modelRun (ops : List (Op α)) : Finset α := ops.foldl applyOpSet ∅

/-- A perfect (maximally packed) AVL subtree of height `e`: both children
perfect of height `e - 1`, cached height `e`.  It stores `2 ^ e - 1` keys. -/
def PerfectT : treeNode α → Nat → Prop
  | .nil, e => e = 0
  | .node _ _ _ _, 0 => False
  | .node _ l r hh, e + 1 => hh = (e : Int) + 1 ∧ PerfectT l e ∧ PerfectT r e

instance PerfectT.dec : (t : treeNode α) → (e : Nat) → Decidable (PerfectT t e)
  | .nil, e => decidable_of_iff (e = 0) Iff.rfl
  | .node _ _ _ _, 0 => .isFalse id
  | .node _ l r _, e + 1 =>
      have : Decidable (PerfectT l e) := PerfectT.dec l e
      have : Decidable (PerfectT r e) := PerfectT.dec r e
      show Decidable (_ ∧ _ ∧ _) from inferInstance

/-- The golden ratio, used to state the AVL worst-case height bound
(`log` base `phiR` of `n + 2` equals `1.4404… * log2 (n + 2)`). -/
noncomputable def phiR : ℝ := (1 + Real.sqrt 5) / 2

/-- Proof-internal bookkeeping: after an insertion of `key` that increased
the subtree height, the result is a node leaning (by one) toward the side
holding `key`.  This is what justifies selecting the rebalancing case by
key comparison in `insertFixup`. -/
def InsGrown (key : α) : treeNode α → Prop
  | .nil => False
  | .node _ l r _ =>
      (key ∈ subtreeInOrder l ∧ height l = height r + 1) ∨
      (key ∈ subtreeInOrder r ∧ height r = height l + 1)

/-- The facade-level invariant of every reachable tree: per-node height
bookkeeping, AVL balance, strictly ascending in-order traversal, and a size
counter equal to the number of stored keys. -/
def TreeInv (t : Tree α) : Prop :=
  HeightsOk t.root ∧ Balanced t.root ∧ (t.InOrder).Pairwise (· < ·) ∧
  t.size = (t.InOrder).length

/-! ### Basic lemmas -/

@[simp]
theorem max_eq (a b : Int) : max a b = Max.max a b := by
  simp only [max]; omega

@[simp]
theorem height_nil : height (.nil : treeNode α) = 0 := rfl

@[simp]
theorem height_node {k : α} {l r : treeNode α} {hh : Int} :
    height (.node k l r hh) = hh := rfl

@[simp]
theorem balanceFactor_nil : balanceFactor (.nil : treeNode α) = 0 := rfl

@[simp]
theorem balanceFactor_node {k : α} {l r : treeNode α} {hh : Int} :
    balanceFactor (.node k l r hh) = height l - height r := rfl

@[simp]
theorem heightsOk_nil : HeightsOk (.nil : treeNode α) := trivial

@[simp]
theorem heightsOk_node {k : α} {l r : treeNode α} {hh : Int} :
    HeightsOk (.node k l r hh) ↔
      hh = 1 + Max.max (height l) (height r) ∧ HeightsOk l ∧ HeightsOk r := by
  simp [HeightsOk]

@[simp]
theorem balanced_nil : Balanced (.nil : treeNode α) := trivial

@[simp]
theorem balanced_node {k : α} {l r : treeNode α} {hh : Int} :
    Balanced (.node k l r hh) ↔
      (height l - height r = -1 ∨ height l - height r = 0 ∨ height l - height r = 1) ∧
      Balanced l ∧ Balanced r := Iff.rfl

@[simp]
theorem inorder_nil : subtreeInOrder (.nil : treeNode α) = [] := rfl

@[simp]
theorem inorder_node {k : α} {l r : treeNode α} {hh : Int} :
    subtreeInOrder (.node k l r hh) = subtreeInOrder l ++ k :: subtreeInOrder r := by
  simp [subtreeInOrder]

theorem height_nonneg {t : treeNode α} (hH : HeightsOk t) : 0 ≤ height t := by
  induction t with
  | nil => simp
  | node k l r hh ihl ihr =>
    simp only [heightsOk_node] at hH
    have := ihl hH.2.1
    have := ihr hH.2.2
    simp only [height_node]
    omega

theorem node_of_height_pos {t : treeNode α} (hH : HeightsOk t) (hpos : 0 < height t) :
    ∃ k l r hh, t = .node k l r hh := by
  cases t with
  | nil => simp at hpos
  | node k l r hh => exact ⟨k, l, r, hh, rfl⟩

theorem inorder_ne_nil {k : α} {l r : treeNode α} {hh : Int} :
    subtreeInOrder (.node k l r hh) ≠ [] := by
  simp [inorder_node]

theorem self_mem_inorder {k : α} {l r : treeNode α} {hh : Int} :
    k ∈ subtreeInOrder (.node k l r hh) := by
  simp [inorder_node]

/-- Decomposition of the strict sortedness of an in-order traversal at a
node: both subtrees sorted, every left key below the node key, every right
key above it. -/
theorem pairwise_inorder_node {k : α} {l r : treeNode α} {hh : Int} :
    (subtreeInOrder (.node k l r hh)).Pairwise (· < ·) ↔
      (subtreeInOrder l).Pairwise (· < ·) ∧ (subtreeInOrder r).Pairwise (· < ·) ∧
      (∀ x ∈ subtreeInOrder l, x < k) ∧ (∀ y ∈ subtreeInOrder r, k < y) := by
  rw [inorder_node]
  constructor
  · intro h
    rw [List.pairwise_append] at h
    obtain ⟨hA, hkB, hcross⟩ := h
    rw [List.pairwise_cons] at hkB
    exact ⟨hA, hkB.2, fun x hx => hcross x hx k (by simp),
      fun y hy => hkB.1 y hy⟩
  · rintro ⟨hA, hB, hAk, hkB⟩
    rw [List.pairwise_append, List.pairwise_cons]
    refine ⟨hA, ⟨hkB, hB⟩, ?_⟩
    intro a ha b hb
    rcases List.mem_cons.mp hb with rfl | hb
    · exact hAk a ha
    · exact lt_trans (hAk a ha) (hkB b hb)

/-- Fixed-up insertion node when no rotation fires. -/
theorem insertFixup_noRot {key k : α} {l r : treeNode α}
    (h1 : height l - height r ≤ 1) (h2 : -1 ≤ height l - height r) :
    insertFixup key k l r = .node k l r (1 + Max.max (height l) (height r)) := by
  rw [insertFixup.eq_def]
  rw [if_neg (by omega), if_neg (by omega), max_eq]

/-- Fixed-up deletion node when no rotation fires. -/
theorem deleteFixup_noRot {k : α} {l r : treeNode α}
    (h1 : height l - height r ≤ 1) (h2 : -1 ≤ height l - height r) :
    deleteFixup k l r = .node k l r (1 + Max.max (height l) (height r)) := by
  rw [deleteFixup.eq_def]
  rw [if_neg (by omega), if_neg (by omega), max_eq]

@[simp]
theorem insGrown_node {key k : α} {l r : treeNode α} {hh : Int} :
    InsGrown key (.node k l r hh) ↔
      (key ∈ subtreeInOrder l ∧ height l = height r + 1) ∨
      (key ∈ subtreeInOrder r ∧ height r = height l + 1) := Iff.rfl


/-- Insert rebalancing, left-overflow case (`bal = 2`): the selected
rotation restores the height bookkeeping and the balance, preserves the
in-order sequence, brings the subtree height back to `height l`, and the
checked variant agrees (no nil dereference). -/
theorem insertFixup_left {key k : α} {l r : treeNode α}
    (hH_l : HeightsOk l) (hB_l : Balanced l) (hH_r : HeightsOk r) (hB_r : Balanced r)
    (hS_l : (subtreeInOrder l).Pairwise (· < ·))
    (hbal : height l - height r = 2)
    (hgrow : InsGrown key l) :
    HeightsOk (insertFixup key k l r) ∧ Balanced (insertFixup key k l r) ∧
    subtreeInOrder (insertFixup key k l r) = subtreeInOrder l ++ k :: subtreeInOrder r ∧
    height (insertFixup key k l r) = height l ∧
    insertFixupChk key k l r = some (insertFixup key k l r) := by
  have hr0 : 0 ≤ height r := height_nonneg hH_r
  obtain ⟨lk, A, B, lh, rfl⟩ := node_of_height_pos hH_l (by omega)
  rw [heightsOk_node] at hH_l
  obtain ⟨hlheq, hH_A, hH_B⟩ := hH_l
  rw [balanced_node] at hB_l
  obtain ⟨hABbal, hB_A, hB_B⟩ := hB_l
  rw [pairwise_inorder_node] at hS_l
  obtain ⟨hS_A, hS_B, hAlt, hBgt⟩ := hS_l
  have hA0 : 0 ≤ height A := height_nonneg hH_A
  have hB0 : 0 ≤ height B := height_nonneg hH_B
  rw [height_node] at hbal
  rw [insGrown_node] at hgrow
  rcases hgrow with ⟨hkey, hAB⟩ | ⟨hkey, hAB⟩
  · -- left-left: single right rotation
    have hklk : key < lk := hAlt key hkey
    have hfix : insertFixup key k (.node lk A B lh) r =
        subtreeRotateRight (.node k (.node lk A B lh) r (1 + max lh (height r))) := by
      simp only [insertFixup, height_node]
      rw [if_pos (show lh - height r > 1 by omega), if_pos hklk]
    have hfixChk : insertFixupChk key k (.node lk A B lh) r =
        some (subtreeRotateRight (.node k (.node lk A B lh) r (1 + max lh (height r)))) := by
      simp only [insertFixupChk, height_node]
      rw [if_pos (show lh - height r > 1 by omega), if_pos hklk]
      simp only [subtreeRotateRightChk]
    rw [hfix]
    simp only [subtreeRotateRight, height_node]
    refine ⟨?_, ?_, ?_, ?_, ?_⟩
    · simp only [heightsOk_node, height_node, max_eq]
      and_intros <;> first | assumption | trivial | omega
    · simp only [balanced_node, height_node, max_eq]
      and_intros <;> first | assumption | trivial | omega
    · simp [inorder_node]
    · simp only [height_node, max_eq]; omega
    · rw [hfixChk]
      simp only [subtreeRotateRight, height_node]
  · -- left-right: double rotation
    have hlk : lk < key := hBgt key hkey
    have hnlt : ¬ key < lk := by
      intro hcon; exact lt_irrefl key (lt_trans hcon hlk)
    obtain ⟨bk, BA, BB, bh, rfl⟩ := node_of_height_pos hH_B (by omega)
    rw [heightsOk_node] at hH_B
    obtain ⟨hbheq, hH_BA, hH_BB⟩ := hH_B
    rw [balanced_node] at hB_B
    obtain ⟨hBbal, hB_BA, hB_BB⟩ := hB_B
    have hBA0 : 0 ≤ height BA := height_nonneg hH_BA
    have hBB0 : 0 ≤ height BB := height_nonneg hH_BB
    simp only [height_node] at hlheq hABbal hAB hB0
    have hfix : insertFixup key k (.node lk A (.node bk BA BB bh) lh) r =
        subtreeRotateRight (.node k
          (subtreeRotateLeft (.node lk A (.node bk BA BB bh) lh)) r
          (1 + max lh (height r))) := by
      simp only [insertFixup, height_node]
      rw [if_pos (show lh - height r > 1 by omega), if_neg hnlt]
    have hfixChk : insertFixupChk key k (.node lk A (.node bk BA BB bh) lh) r =
        some (subtreeRotateRight (.node k
          (subtreeRotateLeft (.node lk A (.node bk BA BB bh) lh)) r
          (1 + max lh (height r)))) := by
      simp only [insertFixupChk, height_node]
      rw [if_pos (show lh - height r > 1 by omega), if_neg hnlt]
      simp only [subtreeRotateLeftChk, Option.bind_eq_bind, Option.some_bind,
        subtreeRotateLeft, height_node, subtreeRotateRightChk]
    rw [hfix]
    simp only [subtreeRotateLeft, subtreeRotateRight, height_node]
    refine ⟨?_, ?_, ?_, ?_, ?_⟩
    · simp only [heightsOk_node, height_node, max_eq]
      and_intros <;> first | assumption | trivial | omega
    · simp only [balanced_node, height_node, max_eq]
      and_intros <;> first | assumption | trivial | omega
    · simp [inorder_node]
    · simp only [height_node, max_eq]; omega
    · rw [hfixChk]
      simp only [subtreeRotateLeft, subtreeRotateRight, height_node]

/-- Insert rebalancing, right-overflow case (`bal = -2`), mirror image. -/
theorem insertFixup_right {key k : α} {l r : treeNode α}
    (hH_l : HeightsOk l) (hB_l : Balanced l) (hH_r : HeightsOk r) (hB_r : Balanced r)
    (hS_r : (subtreeInOrder r).Pairwise (· < ·))
    (hbal : height l - height r = -2)
    (hgrow : InsGrown key r) :
    HeightsOk (insertFixup key k l r) ∧ Balanced (insertFixup key k l r) ∧
    subtreeInOrder (insertFixup key k l r) = subtreeInOrder l ++ k :: subtreeInOrder r ∧
    height (insertFixup key k l r) = height r ∧
    insertFixupChk key k l r = some (insertFixup key k l r) := by
  have hl0 : 0 ≤ height l := height_nonneg hH_l
  obtain ⟨rk, A, B, rh, rfl⟩ := node_of_height_pos hH_r (by omega)
  rw [heightsOk_node] at hH_r
  obtain ⟨hrheq, hH_A, hH_B⟩ := hH_r
  rw [balanced_node] at hB_r
  obtain ⟨hABbal, hB_A, hB_B⟩ := hB_r
  rw [pairwise_inorder_node] at hS_r
  obtain ⟨hS_A, hS_B, hAlt, hBgt⟩ := hS_r
  have hA0 : 0 ≤ height A := height_nonneg hH_A
  have hB0 : 0 ≤ height B := height_nonneg hH_B
  rw [height_node] at hbal
  rw [insGrown_node] at hgrow
  rcases hgrow with ⟨hkey, hAB⟩ | ⟨hkey, hAB⟩
  · -- right-left: double rotation
    have hklt : key < rk := hAlt key hkey
    obtain ⟨ak, AA, AB, ah, rfl⟩ := node_of_height_pos hH_A (by omega)
    rw [heightsOk_node] at hH_A
    obtain ⟨haheq, hH_AA, hH_AB⟩ := hH_A
    rw [balanced_node] at hB_A
    obtain ⟨hAbal, hB_AA, hB_AB⟩ := hB_A
    have hAA0 : 0 ≤ height AA := height_nonneg hH_AA
    have hAB0 : 0 ≤ height AB := height_nonneg hH_AB
    simp only [height_node] at hrheq hABbal hAB hA0
    have hfix : insertFixup key k l (.node rk (.node ak AA AB ah) B rh) =
        subtreeRotateLeft (.node k l
          (subtreeRotateRight (.node rk (.node ak AA AB ah) B rh))
          (1 + max (height l) rh)) := by
      simp only [insertFixup, height_node]
      rw [if_neg (show ¬ height l - rh > 1 by omega),
        if_pos (show height l - rh < -1 by omega), if_pos hklt]
    have hfixChk : insertFixupChk key k l (.node rk (.node ak AA AB ah) B rh) =
        some (subtreeRotateLeft (.node k l
          (subtreeRotateRight (.node rk (.node ak AA AB ah) B rh))
          (1 + max (height l) rh))) := by
      simp only [insertFixupChk, height_node]
      rw [if_neg (show ¬ height l - rh > 1 by omega),
        if_pos (show height l - rh < -1 by omega), if_pos hklt]
      simp only [subtreeRotateRightChk, Option.bind_eq_bind, Option.some_bind,
        subtreeRotateRight, height_node, subtreeRotateLeftChk]
    rw [hfix]
    simp only [subtreeRotateLeft, subtreeRotateRight, height_node]
    refine ⟨?_, ?_, ?_, ?_, ?_⟩
    · simp only [heightsOk_node, height_node, max_eq]
      and_intros <;> first | assumption | trivial | omega
    · simp only [balanced_node, height_node, max_eq]
      and_intros <;> first | assumption | trivial | omega
    · simp [inorder_node]
    · simp only [height_node, max_eq]; omega
    · rw [hfixChk]
      simp only [subtreeRotateLeft, subtreeRotateRight, height_node]
  · -- right-right: single left rotation
    have hrk : rk < key := hBgt key hkey
    have hnlt : ¬ key < rk := by
      intro hcon; exact lt_irrefl key (lt_trans hcon hrk)
    have hfix : insertFixup key k l (.node rk A B rh) =
        subtreeRotateLeft (.node k l (.node rk A B rh) (1 + max (height l) rh)) := by
      simp only [insertFixup, height_node]
      rw [if_neg (show ¬ height l - rh > 1 by omega),
        if_pos (show height l - rh < -1 by omega), if_neg hnlt]
    have hfixChk : insertFixupChk key k l (.node rk A B rh) =
        some (subtreeRotateLeft (.node k l (.node rk A B rh) (1 + max (height l) rh))) := by
      simp only [insertFixupChk, height_node]
      rw [if_neg (show ¬ height l - rh > 1 by omega),
        if_pos (show height l - rh < -1 by omega), if_neg hnlt]
      simp only [subtreeRotateLeftChk]
    rw [hfix]
    simp only [subtreeRotateLeft, height_node]
    refine ⟨?_, ?_, ?_, ?_, ?_⟩
    · simp only [heightsOk_node, height_node, max_eq]
      and_intros <;> first | assumption | trivial | omega
    · simp only [balanced_node, height_node, max_eq]
      and_intros <;> first | assumption | trivial | omega
    · simp [inorder_node]
    · simp only [height_node, max_eq]; omega
    · rw [hfixChk]
      simp only [subtreeRotateLeft, height_node]

/-- Delete rebalancing, left-heavy case (`bal = 2`): the rotation selected
by the left child's balance factor restores all invariants, preserves the
in-order sequence, yields height `height l` or `height l + 1`, and the
checked variant agrees. -/
theorem deleteFixup_left {k : α} {l r : treeNode α}
    (hH_l : HeightsOk l) (hB_l : Balanced l) (hH_r : HeightsOk r) (hB_r : Balanced r)
    (hbal : height l - height r = 2) :
    HeightsOk (deleteFixup k l r) ∧ Balanced (deleteFixup k l r) ∧
    subtreeInOrder (deleteFixup k l r) = subtreeInOrder l ++ k :: subtreeInOrder r ∧
    (height (deleteFixup k l r) = height l ∨ height (deleteFixup k l r) = height l + 1) ∧
    deleteFixupChk k l r = some (deleteFixup k l r) := by
  have hr0 : 0 ≤ height r := height_nonneg hH_r
  obtain ⟨lk, A, B, lh, rfl⟩ := node_of_height_pos hH_l (by omega)
  rw [heightsOk_node] at hH_l
  obtain ⟨hlheq, hH_A, hH_B⟩ := hH_l
  rw [balanced_node] at hB_l
  obtain ⟨hABbal, hB_A, hB_B⟩ := hB_l
  have hA0 : 0 ≤ height A := height_nonneg hH_A
  have hB0 : 0 ≤ height B := height_nonneg hH_B
  rw [height_node] at hbal
  by_cases hguard : height A - height B ≥ 0
  · -- left-left: single right rotation
    have hfix : deleteFixup k (.node lk A B lh) r =
        subtreeRotateRight (.node k (.node lk A B lh) r (1 + max lh (height r))) := by
      simp only [deleteFixup, height_node, balanceFactor_node]
      rw [if_pos (show lh - height r > 1 by omega), if_pos hguard]
    have hfixChk : deleteFixupChk k (.node lk A B lh) r =
        some (subtreeRotateRight (.node k (.node lk A B lh) r (1 + max lh (height r)))) := by
      simp only [deleteFixupChk, height_node, balanceFactor_node]
      rw [if_pos (show lh - height r > 1 by omega), if_pos hguard]
      simp only [subtreeRotateRightChk]
    rw [hfix]
    simp only [subtreeRotateRight, height_node]
    refine ⟨?_, ?_, ?_, ?_, ?_⟩
    · simp only [heightsOk_node, height_node, max_eq]
      and_intros <;> first | assumption | trivial | omega
    · simp only [balanced_node, height_node, max_eq]
      and_intros <;> first | assumption | trivial | omega
    · simp [inorder_node]
    · simp only [height_node, max_eq]; omega
    · rw [hfixChk]
      simp only [subtreeRotateRight, height_node]
  · -- left-right: double rotation
    obtain ⟨bk, BA, BB, bh, rfl⟩ := node_of_height_pos hH_B (by omega)
    rw [heightsOk_node] at hH_B
    obtain ⟨hbheq, hH_BA, hH_BB⟩ := hH_B
    rw [balanced_node] at hB_B
    obtain ⟨hBbal, hB_BA, hB_BB⟩ := hB_B
    have hBA0 : 0 ≤ height BA := height_nonneg hH_BA
    have hBB0 : 0 ≤ height BB := height_nonneg hH_BB
    simp only [height_node] at hlheq hABbal hguard hB0
    have hfix : deleteFixup k (.node lk A (.node bk BA BB bh) lh) r =
        subtreeRotateRight (.node k
          (subtreeRotateLeft (.node lk A (.node bk BA BB bh) lh)) r
          (1 + max lh (height r))) := by
      simp only [deleteFixup, height_node, balanceFactor_node]
      rw [if_pos (show lh - height r > 1 by omega), if_neg hguard]
    have hfixChk : deleteFixupChk k (.node lk A (.node bk BA BB bh) lh) r =
        some (subtreeRotateRight (.node k
          (subtreeRotateLeft (.node lk A (.node bk BA BB bh) lh)) r
          (1 + max lh (height r)))) := by
      simp only [deleteFixupChk, height_node, balanceFactor_node]
      rw [if_pos (show lh - height r > 1 by omega), if_neg hguard]
      simp only [subtreeRotateLeftChk, Option.bind_eq_bind, Option.some_bind,
        subtreeRotateLeft, height_node, subtreeRotateRightChk]
    rw [hfix]
    simp only [subtreeRotateLeft, subtreeRotateRight, height_node]
    refine ⟨?_, ?_, ?_, ?_, ?_⟩
    · simp only [heightsOk_node, height_node, max_eq]
      and_intros <;> first | assumption | trivial | omega
    · simp only [balanced_node, height_node, max_eq]
      and_intros <;> first | assumption | trivial | omega
    · simp [inorder_node]
    · simp only [height_node, max_eq]; omega
    · rw [hfixChk]
      simp only [subtreeRotateLeft, subtreeRotateRight, height_node]

/-- Delete rebalancing, right-heavy case (`bal = -2`), mirror image. -/
theorem deleteFixup_right {k : α} {l r : treeNode α}
    (hH_l : HeightsOk l) (hB_l : Balanced l) (hH_r : HeightsOk r) (hB_r : Balanced r)
    (hbal : height l - height r = -2) :
    HeightsOk (deleteFixup k l r) ∧ Balanced (deleteFixup k l r) ∧
    subtreeInOrder (deleteFixup k l r) = subtreeInOrder l ++ k :: subtreeInOrder r ∧
    (height (deleteFixup k l r) = height r ∨ height (deleteFixup k l r) = height r + 1) ∧
    deleteFixupChk k l r = some (deleteFixup k l r) := by
  have hl0 : 0 ≤ height l := height_nonneg hH_l
  obtain ⟨rk, A, B, rh, rfl⟩ := node_of_height_pos hH_r (by omega)
  rw [heightsOk_node] at hH_r
  obtain ⟨hrheq, hH_A, hH_B⟩ := hH_r
  rw [balanced_node] at hB_r
  obtain ⟨hABbal, hB_A, hB_B⟩ := hB_r
  have hA0 : 0 ≤ height A := height_nonneg hH_A
  have hB0 : 0 ≤ height B := height_nonneg hH_B
  rw [height_node] at hbal
  by_cases hguard : height A - height B ≤ 0
  · -- right-right: single left rotation
    have hfix : deleteFixup k l (.node rk A B rh) =
        subtreeRotateLeft (.node k l (.node rk A B rh) (1 + max (height l) rh)) := by
      simp only [deleteFixup, height_node, balanceFactor_node]
      rw [if_neg (show ¬ height l - rh > 1 by omega),
        if_pos (show height l - rh < -1 by omega), if_pos hguard]
    have hfixChk : deleteFixupChk k l (.node rk A B rh) =
        some (subtreeRotateLeft (.node k l (.node rk A B rh) (1 + max (height l) rh))) := by
      simp only [deleteFixupChk, height_node, balanceFactor_node]
      rw [if_neg (show ¬ height l - rh > 1 by omega),
        if_pos (show height l - rh < -1 by omega), if_pos hguard]
      simp only [subtreeRotateLeftChk]
    rw [hfix]
    simp only [subtreeRotateLeft, height_node]
    refine ⟨?_, ?_, ?_, ?_, ?_⟩
    · simp only [heightsOk_node, height_node, max_eq]
      and_intros <;> first | assumption | trivial | omega
    · simp only [balanced_node, height_node, max_eq]
      and_intros <;> first | assumption | trivial | omega
    · simp [inorder_node]
    · simp only [height_node, max_eq]; omega
    · rw [hfixChk]
      simp only [subtreeRotateLeft, height_node]
  · -- right-left: double rotation
    obtain ⟨ak, AA, AB, ah, rfl⟩ := node_of_height_pos hH_A (by omega)
    rw [heightsOk_node] at hH_A
    obtain ⟨haheq, hH_AA, hH_AB⟩ := hH_A
    rw [balanced_node] at hB_A
    obtain ⟨hAbal, hB_AA, hB_AB⟩ := hB_A
    have hAA0 : 0 ≤ height AA := height_nonneg hH_AA
    have hAB0 : 0 ≤ height AB := height_nonneg hH_AB
    simp only [height_node] at hrheq hABbal hguard hA0
    have hfix : deleteFixup k l (.node rk (.node ak AA AB ah) B rh) =
        subtreeRotateLeft (.node k l
          (subtreeRotateRight (.node rk (.node ak AA AB ah) B rh))
          (1 + max (height l) rh)) := by
      simp only [deleteFixup, height_node, balanceFactor_node]
      rw [if_neg (show ¬ height l - rh > 1 by omega),
        if_pos (show height l - rh < -1 by omega), if_neg hguard]
    have hfixChk : deleteFixupChk k l (.node rk (.node ak AA AB ah) B rh) =
        some (subtreeRotateLeft (.node k l
          (subtreeRotateRight (.node rk (.node ak AA AB ah) B rh))
          (1 + max (height l) rh))) := by
      simp only [deleteFixupChk, height_node, balanceFactor_node]
      rw [if_neg (show ¬ height l - rh > 1 by omega),
        if_pos (show height l - rh < -1 by omega), if_neg hguard]
      simp only [subtreeRotateRightChk, Option.bind_eq_bind, Option.some_bind,
        subtreeRotateRight, height_node, subtreeRotateLeftChk]
    rw [hfix]
    simp only [subtreeRotateLeft, subtreeRotateRight, height_node]
    refine ⟨?_, ?_, ?_, ?_, ?_⟩
    · simp only [heightsOk_node, height_node, max_eq]
      and_intros <;> first | assumption | trivial | omega
    · simp only [balanced_node, height_node, max_eq]
      and_intros <;> first | assumption | trivial | omega
    · simp [inorder_node]
    · simp only [height_node, max_eq]; omega
    · rw [hfixChk]
      simp only [subtreeRotateLeft, subtreeRotateRight, height_node]


/-- Checked fixup when no rotation fires (insert). -/
theorem insertFixupChk_noRot {key k : α} {l r : treeNode α}
    (h1 : height l - height r ≤ 1) (h2 : -1 ≤ height l - height r) :
    insertFixupChk key k l r = some (.node k l r (1 + Max.max (height l) (height r))) := by
  rw [insertFixupChk.eq_def]
  rw [if_neg (by omega), if_neg (by omega), max_eq]

/-- Checked fixup when no rotation fires (delete). -/
theorem deleteFixupChk_noRot {k : α} {l r : treeNode α}
    (h1 : height l - height r ≤ 1) (h2 : -1 ≤ height l - height r) :
    deleteFixupChk k l r = some (.node k l r (1 + Max.max (height l) (height r))) := by
  rw [deleteFixupChk.eq_def]
  rw [if_neg (by omega), if_neg (by omega), max_eq]

/-- Propositional reshuffles used when splicing a fresh key's membership
into a decomposed in-order traversal. -/
theorem or_insert_left {a b c d : Prop} : ((a ∨ b) ∨ c ∨ d) ↔ a ∨ b ∨ c ∨ d := by
  tauto

theorem or_insert_right {a b c d : Prop} : (b ∨ c ∨ a ∨ d) ↔ a ∨ b ∨ c ∨ d := by
  tauto

/-- Glueing strictly sorted pieces around a middle key. -/
theorem pairwise_glue {A B : List α} {k : α}
    (hA : A.Pairwise (· < ·)) (hB : B.Pairwise (· < ·))
    (h1 : ∀ x ∈ A, x < k) (h2 : ∀ y ∈ B, k < y) :
    (A ++ k :: B).Pairwise (· < ·) := by
  rw [List.pairwise_append, List.pairwise_cons]
  refine ⟨hA, ⟨h2, hB⟩, ?_⟩
  intro a ha b hb
  rcases List.mem_cons.mp hb with rfl | hb
  · exact h1 a ha
  · exact lt_trans (h1 a ha) (h2 b hb)

/-- A duplicate insertion returns the tree unchanged together with the
error flag, and the checked variant agrees. -/
theorem subtreeInsertNode_dup {t : treeNode α} {key : α}
    (hH : HeightsOk t) (hB : Balanced t)
    (hS : (subtreeInOrder t).Pairwise (· < ·))
    (hmem : key ∈ subtreeInOrder t) :
    subtreeInsertNode t key = (t, true) ∧
    subtreeInsertNodeChk t key = some (t, true) := by
  induction t with
  | nil => simp at hmem
  | node k l r hh ihl ihr =>
    rw [heightsOk_node] at hH
    obtain ⟨hheq, hH_l, hH_r⟩ := hH
    rw [balanced_node] at hB
    obtain ⟨hlrbal, hB_l, hB_r⟩ := hB
    rw [pairwise_inorder_node] at hS
    obtain ⟨hS_l, hS_r, hLlt, hRgt⟩ := hS
    rcases lt_trichotomy key k with hlt | heq | hgt
    · -- the duplicate is in the left subtree
      have hkeyl : key ∈ subtreeInOrder l := by
        rw [inorder_node] at hmem
        rcases List.mem_append.mp hmem with h1 | h2
        · exact h1
        · rcases List.mem_cons.mp h2 with h3 | h3
          · exact absurd h3 (ne_of_lt hlt)
          · exact absurd (hRgt key h3) (not_lt.mpr (le_of_lt hlt))
      obtain ⟨ih1, ih2⟩ := ihl hH_l hB_l hS_l hkeyl
      constructor
      · simp only [subtreeInsertNode, if_pos hlt, ih1]
        rw [insertFixup_noRot (by omega) (by omega), ← hheq]
      · simp only [subtreeInsertNodeChk, if_pos hlt, ih2,
          Option.bind_eq_bind, Option.some_bind]
        rw [insertFixupChk_noRot (by omega) (by omega)]
        simp only [Option.some_bind, Option.pure_def]
        rw [← hheq]
    · -- the duplicate is at this node
      have hnlt : ¬ key < k := by rw [heq]; exact lt_irrefl k
      constructor
      · simp only [subtreeInsertNode, if_neg hnlt, if_pos heq]
      · simp only [subtreeInsertNodeChk, if_neg hnlt, if_pos heq]
    · -- the duplicate is in the right subtree
      have hnlt : ¬ key < k := not_lt.mpr (le_of_lt hgt)
      have hne : ¬ key = k := (ne_of_gt hgt)
      have hkeyr : key ∈ subtreeInOrder r := by
        rw [inorder_node] at hmem
        rcases List.mem_append.mp hmem with h1 | h2
        · exact absurd (hLlt key h1) (not_lt.mpr (le_of_lt hgt))
        · rcases List.mem_cons.mp h2 with h3 | h3
          · exact absurd h3 hne
          · exact h3
      obtain ⟨ih1, ih2⟩ := ihr hH_r hB_r hS_r hkeyr
      constructor
      · simp only [subtreeInsertNode, if_neg hnlt, if_neg hne, ih1]
        rw [insertFixup_noRot (by omega) (by omega), ← hheq]
      · simp only [subtreeInsertNodeChk, if_neg hnlt, if_neg hne, ih2,
          Option.bind_eq_bind, Option.some_bind]
        rw [insertFixupChk_noRot (by omega) (by omega)]
        simp only [Option.some_bind, Option.pure_def]
        rw [← hheq]


/-- Inserting a fresh key: no error, all invariants preserved, exactly the
new key added, length incremented, height grown by at most one (leaning
toward the inserted side when it grew), and the checked variant agrees. -/
theorem subtreeInsertNode_fresh {t : treeNode α} {key : α}
    (hH : HeightsOk t) (hB : Balanced t)
    (hS : (subtreeInOrder t).Pairwise (· < ·))
    (hmem : key ∉ subtreeInOrder t) :
    (subtreeInsertNode t key).2 = false ∧
    HeightsOk (subtreeInsertNode t key).1 ∧
    Balanced (subtreeInsertNode t key).1 ∧
    (subtreeInOrder (subtreeInsertNode t key).1).Pairwise (· < ·) ∧
    (∀ x, x ∈ subtreeInOrder (subtreeInsertNode t key).1 ↔
      x = key ∨ x ∈ subtreeInOrder t) ∧
    (subtreeInOrder (subtreeInsertNode t key).1).length =
      (subtreeInOrder t).length + 1 ∧
    (height (subtreeInsertNode t key).1 = height t ∨
      (height (subtreeInsertNode t key).1 = height t + 1 ∧
        (t = .nil ∨ InsGrown key (subtreeInsertNode t key).1))) ∧
    subtreeInsertNodeChk t key = some (subtreeInsertNode t key) := by
  induction t with
  | nil =>
    refine ⟨rfl, ?_, ?_, ?_, ?_, ?_, ?_, rfl⟩
    · simp [subtreeInsertNode]
    · simp [subtreeInsertNode]
    · simp [subtreeInsertNode]
    · intro x; simp [subtreeInsertNode]
    · simp [subtreeInsertNode]
    · exact Or.inr ⟨by simp [subtreeInsertNode], Or.inl rfl⟩
  | node k l r hh ihl ihr =>
    rw [heightsOk_node] at hH
    obtain ⟨hheq, hH_l, hH_r⟩ := hH
    rw [balanced_node] at hB
    obtain ⟨hlrbal, hB_l, hB_r⟩ := hB
    rw [pairwise_inorder_node] at hS
    obtain ⟨hS_l, hS_r, hLlt, hRgt⟩ := hS
    have hl0 : 0 ≤ height l := height_nonneg hH_l
    have hr0 : 0 ≤ height r := height_nonneg hH_r
    rw [inorder_node] at hmem
    simp only [List.mem_append, List.mem_cons, not_or] at hmem
    obtain ⟨hnl, hnk, hnr⟩ := hmem
    rcases lt_trichotomy key k with hlt | heq | hgt
    · -- insertion goes into the left subtree
      obtain ⟨iherr, ihH, ihB, ihS, ihmem, ihlen, ihht, ihchk⟩ := ihl hH_l hB_l hS_l hnl
      have hres : subtreeInsertNode (.node k l r hh) key =
          (insertFixup key k (subtreeInsertNode l key).1 r, (subtreeInsertNode l key).2) := by
        simp only [subtreeInsertNode, if_pos hlt]
      rw [hres]
      dsimp only
      by_cases hble : height (subtreeInsertNode l key).1 - height r ≤ 1
      · -- no rotation at this node
        have hbge : -1 ≤ height (subtreeInsertNode l key).1 - height r := by
          rcases ihht with h | ⟨h, _⟩ <;> omega
        rw [insertFixup_noRot hble hbge]
        refine ⟨iherr, ?_, ?_, ?_, ?_, ?_, ?_, ?_⟩
        · simp only [heightsOk_node]
          and_intros <;> first | assumption | trivial | omega
        · simp only [balanced_node]
          and_intros <;> first | assumption | trivial | omega
        · rw [pairwise_inorder_node]
          refine ⟨ihS, hS_r, ?_, hRgt⟩
          intro x hx
          rcases (ihmem x).mp hx with rfl | hxl
          · exact hlt
          · exact hLlt x hxl
        · intro x
          simp only [inorder_node, List.mem_append, List.mem_cons]
          rw [ihmem x]
          exact or_insert_left
        · simp only [inorder_node, List.length_append, List.length_cons]
          omega
        · rcases ihht with hsame | ⟨hplus, hrest⟩
          · left; simp only [height_node]; omega
          · by_cases hcmp : height r ≤ height l
            · right
              refine ⟨by simp only [height_node]; omega, Or.inr ?_⟩
              rw [insGrown_node]
              exact Or.inl ⟨(ihmem key).mpr (Or.inl rfl), by omega⟩
            · left; simp only [height_node]; omega
        · simp only [subtreeInsertNodeChk, if_pos hlt, ihchk,
            Option.bind_eq_bind, Option.some_bind, Option.pure_def,
            insertFixupChk_noRot hble hbge, insertFixup_noRot hble hbge]
      · -- left overflow: the child grew and bal = 2
        have hd2 : height (subtreeInsertNode l key).1 - height r = 2 := by
          rcases ihht with h | ⟨h, _⟩ <;> omega
        rcases ihht with hsame | ⟨hplus, hgrownd⟩
        · exfalso; omega
        rcases hgrownd with hnil | hgrow3
        · exfalso
          have hz : height l = 0 := by rw [hnil]; rfl
          omega
        obtain ⟨fH, fB, fIn, fHt, fChk⟩ :=
          insertFixup_left ihH ihB hH_r hB_r ihS hd2 hgrow3
        refine ⟨iherr, fH, fB, ?_, ?_, ?_, ?_, ?_⟩
        · rw [fIn]
          refine pairwise_glue ihS hS_r ?_ hRgt
          intro x hx
          rcases (ihmem x).mp hx with rfl | hxl
          · exact hlt
          · exact hLlt x hxl
        · intro x
          rw [fIn]
          simp only [inorder_node, List.mem_append, List.mem_cons]
          rw [ihmem x]
          exact or_insert_left
        · rw [fIn]
          simp only [inorder_node, List.length_append, List.length_cons]
          omega
        · left
          simp only [height_node]
          omega
        · simp only [subtreeInsertNodeChk, if_pos hlt, ihchk,
            Option.bind_eq_bind, Option.some_bind, Option.pure_def, fChk]
    · exact absurd heq hnk
    · -- insertion goes into the right subtree
      have hnlt : ¬ key < k := not_lt.mpr (le_of_lt hgt)
      have hne : ¬ key = k := ne_of_gt hgt
      obtain ⟨iherr, ihH, ihB, ihS, ihmem, ihlen, ihht, ihchk⟩ := ihr hH_r hB_r hS_r hnr
      have hres : subtreeInsertNode (.node k l r hh) key =
          (insertFixup key k l (subtreeInsertNode r key).1, (subtreeInsertNode r key).2) := by
        simp only [subtreeInsertNode, if_neg hnlt, if_neg hne]
      rw [hres]
      dsimp only
      by_cases hble : -1 ≤ height l - height (subtreeInsertNode r key).1
      · -- no rotation at this node
        have hbge : height l - height (subtreeInsertNode r key).1 ≤ 1 := by
          rcases ihht with h | ⟨h, _⟩ <;> omega
        rw [insertFixup_noRot hbge hble]
        refine ⟨iherr, ?_, ?_, ?_, ?_, ?_, ?_, ?_⟩
        · simp only [heightsOk_node]
          and_intros <;> first | assumption | trivial | omega
        · simp only [balanced_node]
          and_intros <;> first | assumption | trivial | omega
        · rw [pairwise_inorder_node]
          refine ⟨hS_l, ihS, hLlt, ?_⟩
          intro x hx
          rcases (ihmem x).mp hx with rfl | hxr
          · exact hgt
          · exact hRgt x hxr
        · intro x
          simp only [inorder_node, List.mem_append, List.mem_cons]
          rw [ihmem x]
          exact or_insert_right
        · simp only [inorder_node, List.length_append, List.length_cons]
          omega
        · rcases ihht with hsame | ⟨hplus, hrest⟩
          · left; simp only [height_node]; omega
          · by_cases hcmp : height l ≤ height r
            · right
              refine ⟨by simp only [height_node]; omega, Or.inr ?_⟩
              rw [insGrown_node]
              exact Or.inr ⟨(ihmem key).mpr (Or.inl rfl), by omega⟩
            · left; simp only [height_node]; omega
        · simp only [subtreeInsertNodeChk, if_neg hnlt, if_neg hne, ihchk,
            Option.bind_eq_bind, Option.some_bind, Option.pure_def,
            insertFixupChk_noRot hbge hble, insertFixup_noRot hbge hble]
      · -- right overflow: the child grew and bal = -2
        have hd2 : height l - height (subtreeInsertNode r key).1 = -2 := by
          rcases ihht with h | ⟨h, _⟩ <;> omega
        rcases ihht with hsame | ⟨hplus, hgrownd⟩
        · exfalso; omega
        rcases hgrownd with hnil | hgrow3
        · exfalso
          have hz : height r = 0 := by rw [hnil]; rfl
          omega
        obtain ⟨fH, fB, fIn, fHt, fChk⟩ :=
          insertFixup_right hH_l hB_l ihH ihB ihS hd2 hgrow3
        refine ⟨iherr, fH, fB, ?_, ?_, ?_, ?_, ?_⟩
        · rw [fIn]
          refine pairwise_glue hS_l ihS hLlt ?_
          intro x hx
          rcases (ihmem x).mp hx with rfl | hxr
          · exact hgt
          · exact hRgt x hxr
        · intro x
          rw [fIn]
          simp only [inorder_node, List.mem_append, List.mem_cons]
          rw [ihmem x]
          exact or_insert_right
        · rw [fIn]
          simp only [inorder_node, List.length_append, List.length_cons]
          omega
        · left
          simp only [height_node]
          omega
        · simp only [subtreeInsertNodeChk, if_neg hnlt, if_neg hne, ihchk,
            Option.bind_eq_bind, Option.some_bind, Option.pure_def, fChk]


/-- `subtreeMin` of a node is a node with no left child whose key heads the
in-order traversal. -/
theorem subtreeMin_spec : ∀ {t : treeNode α}, t ≠ .nil →
    ∃ mk mr mh rest, subtreeMin t = .node mk .nil mr mh ∧
      subtreeInOrder t = mk :: rest := by
  intro t
  induction t with
  | nil => intro hcon; exact absurd rfl hcon
  | node k l r hh ihl ihr =>
    intro _
    cases l with
    | nil =>
      refine ⟨k, r, hh, subtreeInOrder r, ?_, ?_⟩
      · rw [subtreeMin]
      · simp [inorder_node]
    | node lk ll lr lh =>
      obtain ⟨mk, mr, mh, rest, hmin, hin⟩ := ihl (by intro hcon; cases hcon)
      refine ⟨mk, mr, mh, rest ++ k :: subtreeInOrder r, ?_, ?_⟩
      · rw [subtreeMin]; exact hmin
      · rw [inorder_node, hin]; simp

/-- `subtreeMax` of a node is a node with no right child whose key is the
last element of the in-order traversal. -/
theorem subtreeMax_spec : ∀ {t : treeNode α}, t ≠ .nil →
    ∃ mk ml mh, subtreeMax t = .node mk ml .nil mh ∧
      (subtreeInOrder t).getLast? = some mk := by
  intro t
  induction t with
  | nil => intro hcon; exact absurd rfl hcon
  | node k l r hh ihl ihr =>
    intro _
    cases r with
    | nil =>
      refine ⟨k, l, hh, ?_, ?_⟩
      · rw [subtreeMax]
      · rw [inorder_node]
        rw [List.getLast?_append_cons]
        rfl
    | node rk rl rr rh =>
      obtain ⟨mk, ml, mh, hmax, hlast⟩ := ihr (by intro hcon; cases hcon)
      refine ⟨mk, ml, mh, ?_, ?_⟩
      · rw [subtreeMax]; exact hmax
      · rw [inorder_node, List.getLast?_append_cons]
        rw [show (k :: subtreeInOrder (.node rk rl rr rh)) =
          [k] ++ subtreeInOrder (.node rk rl rr rh) from rfl]
        rw [List.getLast?_append_of_ne_nil _ inorder_ne_nil]
        exact hlast


/-- Propositional reshuffles used for the membership clause of deletion. -/
theorem or_erase_left {A A2 K B N : Prop}
    (h1 : A2 ↔ A ∧ N) (h2 : K → N) (h3 : B → N) :
    (A2 ∨ K ∨ B) ↔ (A ∨ K ∨ B) ∧ N := by
  tauto

theorem or_erase_right {A K B B2 N : Prop}
    (h1 : B2 ↔ B ∧ N) (h2 : K → N) (h3 : A → N) :
    (A ∨ K ∨ B2) ↔ (A ∨ K ∨ B) ∧ N := by
  tauto

theorem or_erase_self2 {A B K M N : Prop}
    (h2 : M → B) (h3 : A → N) (h4 : B → N) (h5 : K → ¬N) :
    (A ∨ M ∨ (B ∧ ¬M)) ↔ (A ∨ K ∨ B) ∧ N := by
  tauto

theorem or_erase_selfL {A K N : Prop} (h4 : A → N) (h5 : K → ¬N) :
    A ↔ (A ∨ K) ∧ N := by
  tauto

theorem or_erase_selfR {B K N : Prop} (h4 : B → N) (h5 : K → ¬N) :
    B ↔ (K ∨ B) ∧ N := by
  tauto

/-- Deleting an absent key returns the tree unchanged together with the
error flag, and the checked variant agrees. -/
theorem subtreeDeleteNode_notfound {t : treeNode α} {key : α}
    (hH : HeightsOk t) (hB : Balanced t)
    (hS : (subtreeInOrder t).Pairwise (· < ·))
    (hmem : key ∉ subtreeInOrder t) :
    subtreeDeleteNode t key = (t, true) ∧
    subtreeDeleteNodeChk t key = some (t, true) := by
  induction t with
  | nil => exact ⟨rfl, rfl⟩
  | node k l r hh ihl ihr =>
    rw [heightsOk_node] at hH
    obtain ⟨hheq, hH_l, hH_r⟩ := hH
    rw [balanced_node] at hB
    obtain ⟨hlrbal, hB_l, hB_r⟩ := hB
    rw [pairwise_inorder_node] at hS
    obtain ⟨hS_l, hS_r, hLlt, hRgt⟩ := hS
    rw [inorder_node] at hmem
    simp only [List.mem_append, List.mem_cons, not_or] at hmem
    obtain ⟨hnl, hnk, hnr⟩ := hmem
    rcases lt_trichotomy key k with hlt | heq | hgt
    · obtain ⟨ih1, ih2⟩ := ihl hH_l hB_l hS_l hnl
      constructor
      · rw [subtreeDeleteNode.eq_def]
        dsimp only
        rw [if_pos hlt, ih1]
        dsimp only
        rw [deleteFixup_noRot (by omega) (by omega), ← hheq]
      · rw [subtreeDeleteNodeChk.eq_def]
        dsimp only
        rw [if_pos hlt, ih2]
        simp only [Option.bind_eq_bind, Option.some_bind]
        rw [deleteFixupChk_noRot (by omega) (by omega)]
        simp only [Option.some_bind, Option.pure_def]
        rw [← hheq]
    · exact absurd heq hnk
    · have hnlt : ¬ key < k := not_lt.mpr (le_of_lt hgt)
      have hne : ¬ key = k := ne_of_gt hgt
      obtain ⟨ih1, ih2⟩ := ihr hH_r hB_r hS_r hnr
      constructor
      · rw [subtreeDeleteNode.eq_def]
        dsimp only
        rw [if_neg hnlt, if_neg hne, ih1]
        dsimp only
        rw [deleteFixup_noRot (by omega) (by omega), ← hheq]
      · rw [subtreeDeleteNodeChk.eq_def]
        dsimp only
        rw [if_neg hnlt, if_neg hne, ih2]
        simp only [Option.bind_eq_bind, Option.some_bind]
        rw [deleteFixupChk_noRot (by omega) (by omega)]
        simp only [Option.some_bind, Option.pure_def]
        rw [← hheq]


/-- Deleting a stored key: no error, all invariants preserved, exactly that
key removed, length decremented, height shrunk by at most one, and the
checked variant agrees. -/
theorem subtreeDeleteNode_found {t : treeNode α} : ∀ {key : α},
    HeightsOk t → Balanced t → (subtreeInOrder t).Pairwise (· < ·) →
    key ∈ subtreeInOrder t →
    (subtreeDeleteNode t key).2 = false ∧
    HeightsOk (subtreeDeleteNode t key).1 ∧
    Balanced (subtreeDeleteNode t key).1 ∧
    (subtreeInOrder (subtreeDeleteNode t key).1).Pairwise (· < ·) ∧
    (∀ x, x ∈ subtreeInOrder (subtreeDeleteNode t key).1 ↔
      x ∈ subtreeInOrder t ∧ x ≠ key) ∧
    (subtreeInOrder (subtreeDeleteNode t key).1).length + 1 =
      (subtreeInOrder t).length ∧
    (height (subtreeDeleteNode t key).1 = height t ∨
      height (subtreeDeleteNode t key).1 + 1 = height t) ∧
    subtreeDeleteNodeChk t key = some (subtreeDeleteNode t key) := by
  induction t with
  | nil => intro key _ _ _ hmem; simp at hmem
  | node k l r hh ihl ihr =>
    intro key hH hB hS hmem
    rw [heightsOk_node] at hH
    obtain ⟨hheq, hH_l, hH_r⟩ := hH
    rw [balanced_node] at hB
    obtain ⟨hlrbal, hB_l, hB_r⟩ := hB
    rw [pairwise_inorder_node] at hS
    obtain ⟨hS_l, hS_r, hLlt, hRgt⟩ := hS
    have hl0 : 0 ≤ height l := height_nonneg hH_l
    have hr0 : 0 ≤ height r := height_nonneg hH_r
    rcases lt_trichotomy key k with hlt | heq | hgt
    · -- deletion goes into the left subtree
      have hkeyl : key ∈ subtreeInOrder l := by
        rw [inorder_node] at hmem
        rcases List.mem_append.mp hmem with h1 | h2
        · exact h1
        · rcases List.mem_cons.mp h2 with h3 | h3
          · exact absurd h3 (ne_of_lt hlt)
          · exact absurd (hRgt key h3) (not_lt.mpr (le_of_lt hlt))
      obtain ⟨derr, dH, dB, dS, dmem, dlen, dht, dchk⟩ := ihl hH_l hB_l hS_l hkeyl
      have hkN : ∀ x : α, x = k → x ≠ key := by
        intro x hx; rw [hx]; exact ne_of_gt hlt
      have hrN : ∀ x : α, x ∈ subtreeInOrder r → x ≠ key := by
        intro x hx hc
        rw [hc] at hx
        exact lt_asymm hlt (hRgt key hx)
      have hres : subtreeDeleteNode (.node k l r hh) key =
          (deleteFixup k (subtreeDeleteNode l key).1 r, (subtreeDeleteNode l key).2) := by
        rw [subtreeDeleteNode.eq_def]
        dsimp only
        rw [if_pos hlt]
      rw [hres]
      dsimp only
      by_cases hble : -1 ≤ height (subtreeDeleteNode l key).1 - height r
      · -- no rotation at this node
        have hbge : height (subtreeDeleteNode l key).1 - height r ≤ 1 := by
          rcases dht with h | h <;> omega
        rw [deleteFixup_noRot hbge hble]
        refine ⟨derr, ?_, ?_, ?_, ?_, ?_, ?_, ?_⟩
        · exact heightsOk_node.mpr ⟨rfl, dH, hH_r⟩
        · exact balanced_node.mpr ⟨by omega, dB, hB_r⟩
        · rw [pairwise_inorder_node]
          exact ⟨dS, hS_r, fun x hx => hLlt x ((dmem x).mp hx).1, hRgt⟩
        · intro x
          simp only [inorder_node, List.mem_append, List.mem_cons]
          exact or_erase_left (dmem x) (hkN x) (hrN x)
        · simp only [inorder_node, List.length_append, List.length_cons]
          omega
        · simp only [height_node]
          omega
        · rw [subtreeDeleteNodeChk.eq_def]
          dsimp only
          rw [if_pos hlt, dchk]
          simp only [Option.bind_eq_bind, Option.some_bind]
          rw [deleteFixupChk_noRot hbge hble]
          simp only [Option.some_bind, Option.pure_def]
      · -- right-heavy overflow after shrinking the left subtree
        have hd2 : height (subtreeDeleteNode l key).1 - height r = -2 := by
          rcases dht with h | h <;> omega
        obtain ⟨fH, fB, fIn, fHt, fChk⟩ := deleteFixup_right dH dB hH_r hB_r hd2
        refine ⟨derr, fH, fB, ?_, ?_, ?_, ?_, ?_⟩
        · rw [fIn]
          exact pairwise_glue dS hS_r (fun x hx => hLlt x ((dmem x).mp hx).1) hRgt
        · intro x
          rw [fIn]
          simp only [inorder_node, List.mem_append, List.mem_cons]
          exact or_erase_left (dmem x) (hkN x) (hrN x)
        · rw [fIn]
          simp only [inorder_node, List.length_append, List.length_cons]
          omega
        · simp only [height_node]
          omega
        · rw [subtreeDeleteNodeChk.eq_def]
          dsimp only
          rw [if_pos hlt, dchk]
          simp only [Option.bind_eq_bind, Option.some_bind]
          rw [fChk]
          simp only [Option.some_bind, Option.pure_def]
    · -- the key sits at this node
      have hnlt : ¬ key < k := by rw [heq]; exact lt_irrefl k
      have hkN : ∀ x : α, x = k → ¬ x ≠ key := by
        intro x hx
        exact not_not_intro (by rw [hx, heq])
      cases l with
      | nil =>
        cases r with
        | nil =>
          have hres : subtreeDeleteNode (.node k .nil .nil hh) key = (.nil, false) := by
            rw [subtreeDeleteNode.eq_def]
            dsimp only
            rw [if_neg hnlt, if_pos heq]
          have hresChk : subtreeDeleteNodeChk (.node k .nil .nil hh) key =
              some (.nil, false) := by
            rw [subtreeDeleteNodeChk.eq_def]
            dsimp only
            rw [if_neg hnlt, if_pos heq]
          rw [hres]
          dsimp only
          refine ⟨rfl, trivial, trivial, List.Pairwise.nil, ?_, ?_, ?_, ?_⟩
          · intro x
            constructor
            · intro hx
              exact absurd hx (List.not_mem_nil x)
            · rintro ⟨hx, hne⟩
              rw [inorder_node, inorder_nil] at hx
              simp only [List.nil_append, List.mem_cons, List.not_mem_nil, or_false] at hx
              exact absurd hx (by intro hxx; exact (hkN x hxx) hne)
          · simp [inorder_node]
          · right
            simp only [height_nil, height_node]
            simp only [height_nil] at hheq
            omega
          · rw [hresChk]
        | node rk rl rr rh =>
          rw [heightsOk_node] at hH_r
          obtain ⟨hrheq, hH_rl, hH_rr⟩ := hH_r
          rw [balanced_node] at hB_r
          obtain ⟨hrbal, hB_rl, hB_rr⟩ := hB_r
          simp only [height_nil, height_node] at hheq hlrbal hr0
          have h_rl0 : 0 ≤ height rl := height_nonneg hH_rl
          have h_rr0 : 0 ≤ height rr := height_nonneg hH_rr
          have hres : subtreeDeleteNode (.node k .nil (.node rk rl rr rh) hh) key =
              (deleteFixup rk rl rr, false) := by
            rw [subtreeDeleteNode.eq_def]
            dsimp only
            rw [if_neg hnlt, if_pos heq]
          have hfix2 : deleteFixup rk rl rr = .node rk rl rr rh := by
            rw [deleteFixup_noRot (by omega) (by omega), ← hrheq]
          rw [hres, hfix2]
          dsimp only
          have hrN : ∀ x : α, x ∈ subtreeInOrder (.node rk rl rr rh) → x ≠ key := by
            intro x hx hc
            rw [hc, heq] at hx
            exact lt_irrefl k (hRgt k hx)
          refine ⟨rfl, ?_, ?_, hS_r, ?_, ?_, ?_, ?_⟩
          · exact heightsOk_node.mpr ⟨hrheq, hH_rl, hH_rr⟩
          · exact balanced_node.mpr ⟨hrbal, hB_rl, hB_rr⟩
          · intro x
            rw [show subtreeInOrder (.node k .nil (.node rk rl rr rh) hh) =
              k :: subtreeInOrder (.node rk rl rr rh) from by rw [inorder_node, inorder_nil]; rfl]
            simp only [List.mem_cons]
            exact or_erase_selfR (hrN x) (hkN x)
          · rw [show subtreeInOrder (.node k .nil (.node rk rl rr rh) hh) =
              k :: subtreeInOrder (.node rk rl rr rh) from by rw [inorder_node, inorder_nil]; rfl]
            simp only [List.length_cons]
          · right
            simp only [height_node]
            omega
          · rw [subtreeDeleteNodeChk.eq_def]
            dsimp only
            rw [if_neg hnlt, if_pos heq]
            rw [deleteFixupChk_noRot (by omega) (by omega)]
            simp only [Option.bind_eq_bind, Option.some_bind, Option.pure_def]
            rw [← hrheq]
      | node lk ll lr lh =>
        cases r with
        | nil =>
          rw [heightsOk_node] at hH_l
          obtain ⟨hlheq, hH_ll, hH_lr⟩ := hH_l
          rw [balanced_node] at hB_l
          obtain ⟨hlbal, hB_ll, hB_lr⟩ := hB_l
          simp only [height_nil, height_node] at hheq hlrbal hl0
          have h_ll0 : 0 ≤ height ll := height_nonneg hH_ll
          have h_lr0 : 0 ≤ height lr := height_nonneg hH_lr
          have hres : subtreeDeleteNode (.node k (.node lk ll lr lh) .nil hh) key =
              (deleteFixup lk ll lr, false) := by
            rw [subtreeDeleteNode.eq_def]
            dsimp only
            rw [if_neg hnlt, if_pos heq]
          have hfix2 : deleteFixup lk ll lr = .node lk ll lr lh := by
            rw [deleteFixup_noRot (by omega) (by omega), ← hlheq]
          rw [hres, hfix2]
          dsimp only
          have hlN : ∀ x : α, x ∈ subtreeInOrder (.node lk ll lr lh) → x ≠ key := by
            intro x hx hc
            rw [hc, heq] at hx
            exact lt_irrefl k (hLlt k hx)
          refine ⟨rfl, ?_, ?_, hS_l, ?_, ?_, ?_, ?_⟩
          · exact heightsOk_node.mpr ⟨hlheq, hH_ll, hH_lr⟩
          · exact balanced_node.mpr ⟨hlbal, hB_ll, hB_lr⟩
          · intro x
            rw [show subtreeInOrder (.node k (.node lk ll lr lh) .nil hh) =
              subtreeInOrder (.node lk ll lr lh) ++ k :: [] from by
                rw [inorder_node, inorder_nil]]
            simp only [List.mem_append, List.mem_cons, List.not_mem_nil, or_false]
            exact or_erase_selfL (hlN x) (hkN x)
          · rw [show subtreeInOrder (.node k (.node lk ll lr lh) .nil hh) =
              subtreeInOrder (.node lk ll lr lh) ++ k :: [] from by
                rw [inorder_node, inorder_nil]]
            simp only [List.length_append, List.length_cons, List.length_nil]
          · right
            simp only [height_node]
            omega
          · rw [subtreeDeleteNodeChk.eq_def]
            dsimp only
            rw [if_neg hnlt, if_pos heq]
            rw [deleteFixupChk_noRot (by omega) (by omega)]
            simp only [Option.bind_eq_bind, Option.some_bind, Option.pure_def]
            rw [← hlheq]
        | node rk rl rr rh =>
          -- two children: splice the in-order successor of the root
          have e1 : height (treeNode.node lk ll lr lh : treeNode α) = lh := rfl
          have e2 : height (treeNode.node rk rl rr rh : treeNode α) = rh := rfl
          have hrne : (treeNode.node rk rl rr rh : treeNode α) ≠ .nil := by simp
          obtain ⟨mk, mr', mh', rest, hmin, hin⟩ := subtreeMin_spec hrne
          have hmkr : mk ∈ subtreeInOrder (.node rk rl rr rh) := by
            rw [hin]; exact List.mem_cons_self mk rest
          have hkmk : k < mk := hRgt mk hmkr
          obtain ⟨derr, dH, dB, dS, dmem, dlen, dht, dchk⟩ := ihr hH_r hB_r hS_r hmkr
          have hmklt : ∀ z ∈ rest, mk < z := by
            have := hS_r
            rw [hin, List.pairwise_cons] at this
            exact this.1
          have hres : subtreeDeleteNode (.node k (.node lk ll lr lh) (.node rk rl rr rh) hh) key =
              (deleteFixup mk (.node lk ll lr lh)
                 (subtreeDeleteNode (.node rk rl rr rh) mk).1,
               (subtreeDeleteNode (.node rk rl rr rh) mk).2) := by
            rw [subtreeDeleteNode.eq_def]
            dsimp only
            rw [if_neg hnlt, if_pos heq, hmin]
          rw [hres]
          dsimp only
          have hLltmk : ∀ x ∈ subtreeInOrder (.node lk ll lr lh), x < mk :=
            fun x hx => lt_trans (hLlt x hx) hkmk
          have hmkgt : ∀ y ∈ subtreeInOrder (subtreeDeleteNode (.node rk rl rr rh) mk).1, mk < y := by
            intro y hy
            obtain ⟨hy1, hy2⟩ := (dmem y).mp hy
            rw [hin] at hy1
            rcases List.mem_cons.mp hy1 with rfl | hy3
            · exact absurd rfl hy2
            · exact hmklt y hy3
          have hmemRHS : ∀ x : α,
              x ∈ subtreeInOrder (.node k (.node lk ll lr lh) (.node rk rl rr rh) hh) ↔
              x ∈ subtreeInOrder (.node lk ll lr lh) ∨ x = k ∨
                x ∈ subtreeInOrder (.node rk rl rr rh) := by
            intro x
            rw [inorder_node]
            simp only [List.mem_append, List.mem_cons]
          have hlN : ∀ x : α, x ∈ subtreeInOrder (.node lk ll lr lh) → x ≠ key := by
            intro x hx hc
            rw [hc, heq] at hx
            exact lt_irrefl k (hLlt k hx)
          have hrN : ∀ x : α, x ∈ subtreeInOrder (.node rk rl rr rh) → x ≠ key := by
            intro x hx hc
            rw [hc, heq] at hx
            exact lt_irrefl k (hRgt k hx)
          have hmkB : ∀ x : α, x = mk → x ∈ subtreeInOrder (.node rk rl rr rh) := by
            intro x hx; rw [hx]; exact hmkr
          by_cases hble : height (treeNode.node lk ll lr lh) -
              height (subtreeDeleteNode (.node rk rl rr rh) mk).1 ≤ 1
          · -- no rotation
            have hbge : -1 ≤ height (treeNode.node lk ll lr lh) -
                height (subtreeDeleteNode (.node rk rl rr rh) mk).1 := by
              rcases dht with h | h <;> omega
            rw [deleteFixup_noRot hble hbge]
            refine ⟨derr, ?_, ?_, ?_, ?_, ?_, ?_, ?_⟩
            · exact heightsOk_node.mpr ⟨rfl, hH_l, dH⟩
            · exact balanced_node.mpr ⟨by omega, hB_l, dB⟩
            · rw [pairwise_inorder_node]
              exact ⟨hS_l, dS, hLltmk, hmkgt⟩
            · intro x
              rw [inorder_node]
              simp only [List.mem_append, List.mem_cons]
              rw [hmemRHS x, dmem x]
              exact or_erase_self2 (hmkB x) (hlN x) (hrN x) (hkN x)
            · rw [inorder_node]
              simp only [List.length_append, List.length_cons]
              rw [show (subtreeInOrder (.node k (.node lk ll lr lh) (.node rk rl rr rh) hh)).length =
                (subtreeInOrder (.node lk ll lr lh)).length + 1 +
                  (subtreeInOrder (.node rk rl rr rh)).length from by
                rw [inorder_node]
                simp only [List.length_append, List.length_cons]
                omega]
              omega
            · simp only [height_node]
              omega
            · rw [subtreeDeleteNodeChk.eq_def]
              dsimp only
              rw [if_neg hnlt, if_pos heq, hmin]
              dsimp only
              rw [dchk]
              simp only [Option.bind_eq_bind, Option.some_bind]
              rw [deleteFixupChk_noRot hble hbge]
              simp only [Option.some_bind, Option.pure_def]
          · -- left-heavy overflow after shrinking the right subtree
            have hd2 : height (treeNode.node lk ll lr lh) -
                height (subtreeDeleteNode (.node rk rl rr rh) mk).1 = 2 := by
              rcases dht with h | h <;> omega
            obtain ⟨fH, fB, fIn, fHt, fChk⟩ := deleteFixup_left hH_l hB_l dH dB hd2
            refine ⟨derr, fH, fB, ?_, ?_, ?_, ?_, ?_⟩
            · rw [fIn]
              exact pairwise_glue hS_l dS hLltmk hmkgt
            · intro x
              rw [fIn]
              simp only [List.mem_append, List.mem_cons]
              rw [hmemRHS x, dmem x]
              exact or_erase_self2 (hmkB x) (hlN x) (hrN x) (hkN x)
            · rw [fIn]
              simp only [List.length_append, List.length_cons]
              rw [show (subtreeInOrder (.node k (.node lk ll lr lh) (.node rk rl rr rh) hh)).length =
                (subtreeInOrder (.node lk ll lr lh)).length + 1 +
                  (subtreeInOrder (.node rk rl rr rh)).length from by
                rw [inorder_node]
                simp only [List.length_append, List.length_cons]
                omega]
              omega
            · simp only [height_node]
              omega
            · rw [subtreeDeleteNodeChk.eq_def]
              dsimp only
              rw [if_neg hnlt, if_pos heq, hmin]
              dsimp only
              rw [dchk]
              simp only [Option.bind_eq_bind, Option.some_bind]
              rw [fChk]
              simp only [Option.some_bind, Option.pure_def]
    · -- deletion goes into the right subtree
      have hnlt : ¬ key < k := not_lt.mpr (le_of_lt hgt)
      have hne : ¬ key = k := ne_of_gt hgt
      have hkeyr : key ∈ subtreeInOrder r := by
        rw [inorder_node] at hmem
        rcases List.mem_append.mp hmem with h1 | h2
        · exact absurd (hLlt key h1) (not_lt.mpr (le_of_lt hgt))
        · rcases List.mem_cons.mp h2 with h3 | h3
          · exact absurd h3 hne
          · exact h3
      obtain ⟨derr, dH, dB, dS, dmem, dlen, dht, dchk⟩ := ihr hH_r hB_r hS_r hkeyr
      have hkN : ∀ x : α, x = k → x ≠ key := by
        intro x hx; rw [hx]; exact ne_of_lt hgt
      have hlN : ∀ x : α, x ∈ subtreeInOrder l → x ≠ key := by
        intro x hx hc
        rw [hc] at hx
        exact lt_asymm hgt (hLlt key hx)
      have hres : subtreeDeleteNode (.node k l r hh) key =
          (deleteFixup k l (subtreeDeleteNode r key).1, (subtreeDeleteNode r key).2) := by
        rw [subtreeDeleteNode.eq_def]
        dsimp only
        rw [if_neg hnlt, if_neg hne]
      rw [hres]
      dsimp only
      by_cases hble : height l - height (subtreeDeleteNode r key).1 ≤ 1
      · -- no rotation at this node
        have hbge : -1 ≤ height l - height (subtreeDeleteNode r key).1 := by
          rcases dht with h | h <;> omega
        rw [deleteFixup_noRot hble hbge]
        refine ⟨derr, ?_, ?_, ?_, ?_, ?_, ?_, ?_⟩
        · exact heightsOk_node.mpr ⟨rfl, hH_l, dH⟩
        · exact balanced_node.mpr ⟨by omega, hB_l, dB⟩
        · rw [pairwise_inorder_node]
          exact ⟨hS_l, dS, hLlt, fun x hx => hRgt x ((dmem x).mp hx).1⟩
        · intro x
          simp only [inorder_node, List.mem_append, List.mem_cons]
          exact or_erase_right (dmem x) (hkN x) (hlN x)
        · simp only [inorder_node, List.length_append, List.length_cons]
          omega
        · simp only [height_node]
          omega
        · rw [subtreeDeleteNodeChk.eq_def]
          dsimp only
          rw [if_neg hnlt, if_neg hne, dchk]
          simp only [Option.bind_eq_bind, Option.some_bind]
          rw [deleteFixupChk_noRot hble hbge]
          simp only [Option.some_bind, Option.pure_def]
      · -- left-heavy overflow after shrinking the right subtree
        have hd2 : height l - height (subtreeDeleteNode r key).1 = 2 := by
          rcases dht with h | h <;> omega
        obtain ⟨fH, fB, fIn, fHt, fChk⟩ := deleteFixup_left hH_l hB_l dH dB hd2
        refine ⟨derr, fH, fB, ?_, ?_, ?_, ?_, ?_⟩
        · rw [fIn]
          exact pairwise_glue hS_l dS hLlt (fun x hx => hRgt x ((dmem x).mp hx).1)
        · intro x
          rw [fIn]
          simp only [inorder_node, List.mem_append, List.mem_cons]
          exact or_erase_right (dmem x) (hkN x) (hlN x)
        · rw [fIn]
          simp only [inorder_node, List.length_append, List.length_cons]
          omega
        · simp only [height_node]
          omega
        · rw [subtreeDeleteNodeChk.eq_def]
          dsimp only
          rw [if_neg hnlt, if_neg hne, dchk]
          simp only [Option.bind_eq_bind, Option.some_bind]
          rw [fChk]
          simp only [Option.some_bind, Option.pure_def]


/-- The empty tree satisfies the facade invariant. -/
theorem treeInv_new : TreeInv (NewTree : Tree α) :=
  ⟨trivial, trivial, List.Pairwise.nil, rfl⟩

/-- Facade-level specification of `Insert` on an invariant-satisfying tree:
the invariant is preserved, the error is reported exactly for duplicates,
a failing insert returns the tree unchanged, a successful insert bumps the
size counter and the key count by one, and membership gains exactly `k`. -/
theorem Tree.Insert_spec {t : Tree α} (k : α) (h : TreeInv t) :
    TreeInv (t.Insert k).1 ∧
    ((t.Insert k).2 = true ↔ k ∈ t.InOrder) ∧
    ((t.Insert k).2 = true → (t.Insert k).1 = t) ∧
    ((t.Insert k).2 = false →
      (t.Insert k).1.size = t.size + 1 ∧
      (t.Insert k).1.InOrder.length = t.InOrder.length + 1 ∧
      k ∈ (t.Insert k).1.InOrder) ∧
    (∀ x, x ∈ (t.Insert k).1.InOrder ↔ x = k ∨ x ∈ t.InOrder) := by
  obtain ⟨hH, hB, hSo, hSz⟩ := h
  by_cases hm : k ∈ t.InOrder
  · obtain ⟨e1, e2⟩ := subtreeInsertNode_dup hH hB hSo hm
    have hres : t.Insert k = (t, true) := by
      simp [Tree.Insert, e1]
    rw [hres]
    refine ⟨⟨hH, hB, hSo, hSz⟩, by simp [hm], fun _ => rfl, by simp, ?_⟩
    intro x
    constructor
    · intro hx; exact Or.inr hx
    · rintro (rfl | hx)
      · exact hm
      · exact hx
  · obtain ⟨e1, e2, e3, e4, e5, e6, e7, e8⟩ := subtreeInsertNode_fresh hH hB hSo hm
    have hres : t.Insert k =
        (⟨(subtreeInsertNode t.root k).1, t.size + 1⟩, false) := by
      simp [Tree.Insert, e1]
    rw [hres]
    refine ⟨⟨e2, e3, e4, ?_⟩, ?_, ?_, ?_, ?_⟩
    · show t.size + 1 = ((subtreeInOrder (subtreeInsertNode t.root k).1).length : Int)
      rw [show t.InOrder = subtreeInOrder t.root from rfl] at hSz
      omega
    · simp [hm]
    · intro hcon; cases hcon
    · intro _
      exact ⟨rfl, e6, (e5 k).mpr (Or.inl rfl)⟩
    · exact e5

/-- Facade-level specification of `Delete`, mirror of `Tree.Insert_spec`. -/
theorem Tree.Delete_spec {t : Tree α} (k : α) (h : TreeInv t) :
    TreeInv (t.Delete k).1 ∧
    ((t.Delete k).2 = true ↔ k ∉ t.InOrder) ∧
    ((t.Delete k).2 = true → (t.Delete k).1 = t) ∧
    ((t.Delete k).2 = false →
      (t.Delete k).1.size = t.size - 1 ∧
      (t.Delete k).1.InOrder.length + 1 = t.InOrder.length ∧
      k ∉ (t.Delete k).1.InOrder) ∧
    (∀ x, x ∈ (t.Delete k).1.InOrder ↔ x ∈ t.InOrder ∧ x ≠ k) := by
  obtain ⟨hH, hB, hSo, hSz⟩ := h
  by_cases hm : k ∈ t.InOrder
  · obtain ⟨e1, e2, e3, e4, e5, e6, e7, e8⟩ := subtreeDeleteNode_found hH hB hSo hm
    have hres : t.Delete k =
        (⟨(subtreeDeleteNode t.root k).1, t.size - 1⟩, false) := by
      simp [Tree.Delete, e1]
    rw [hres]
    refine ⟨⟨e2, e3, e4, ?_⟩, ?_, ?_, ?_, ?_⟩
    · show t.size - 1 = ((subtreeInOrder (subtreeDeleteNode t.root k).1).length : Int)
      rw [show t.InOrder = subtreeInOrder t.root from rfl] at hSz
      omega
    · simp [hm]
    · intro hcon; cases hcon
    · intro _
      refine ⟨rfl, e6, ?_⟩
      intro hcon
      exact ((e5 k).mp hcon).2 rfl
    · exact e5
  · obtain ⟨e1, e2⟩ := subtreeDeleteNode_notfound hH hB hSo hm
    have hres : t.Delete k = (t, true) := by
      simp [Tree.Delete, e1]
    rw [hres]
    refine ⟨⟨hH, hB, hSo, hSz⟩, by simp [hm], fun _ => rfl, by simp, ?_⟩
    intro x
    constructor
    · intro hx
      refine ⟨hx, ?_⟩
      intro hcon
      rw [hcon] at hx
      exact hm hx
    · rintro ⟨hx, _⟩
      exact hx

/-- Every reachable tree satisfies the facade invariant. -/
theorem reachable_treeInv {t : Tree α} (h : Reachable t) : TreeInv t := by
  induction h with
  | new => exact treeInv_new
  | ins h ih => exact (Tree.Insert_spec _ ih).1
  | del h ih => exact (Tree.Delete_spec _ ih).1

/-- Two strictly ascending lists with the same members are equal. -/
theorem pairwise_lt_eq_of_mem_iff :
    ∀ {l₁ l₂ : List α}, l₁.Pairwise (· < ·) → l₂.Pairwise (· < ·) →
      (∀ x, x ∈ l₁ ↔ x ∈ l₂) → l₁ = l₂ := by
  intro l₁
  induction l₁ with
  | nil =>
    intro l₂ _ _ hm
    cases l₂ with
    | nil => rfl
    | cons b t₂ => exact absurd ((hm b).mpr (List.mem_cons_self b t₂)) (List.not_mem_nil b)
  | cons a t₁ ih =>
    intro l₂ h₁ h₂ hm
    cases l₂ with
    | nil => exact absurd ((hm a).mp (List.mem_cons_self a t₁)) (List.not_mem_nil a)
    | cons b t₂ =>
      rw [List.pairwise_cons] at h₁ h₂
      have hab : a = b := by
        rcases List.mem_cons.mp ((hm a).mp (List.mem_cons_self a t₁)) with h | h
        · exact h
        · rcases List.mem_cons.mp ((hm b).mpr (List.mem_cons_self b t₂)) with h3 | h3
          · exact h3.symm
          · exact absurd (h₁.1 b h3) (not_lt.mpr (le_of_lt (h₂.1 a h)))
      subst hab
      congr 1
      apply ih h₁.2 h₂.2
      intro x
      constructor
      · intro hx
        rcases List.mem_cons.mp ((hm x).mp (List.mem_cons.mpr (Or.inr hx))) with h | h
        · exact absurd (h₁.1 x hx) (by rw [h]; exact lt_irrefl a)
        · exact h
      · intro hx
        rcases List.mem_cons.mp ((hm x).mpr (List.mem_cons.mpr (Or.inr hx))) with h | h
        · exact absurd (h₂.1 x hx) (by rw [h]; exact lt_irrefl a)
        · exact h

/-- Running a call sequence preserves the invariant and tracks the
reference set semantics (insert adds the key, delete removes it). -/
theorem foldl_applyOp_spec (ops : List (Op α)) :
    ∀ (t : Tree α) (s : Finset α), TreeInv t →
      (∀ x, x ∈ t.InOrder ↔ x ∈ s) →
      TreeInv (ops.foldl applyOp t) ∧
      ∀ x, x ∈ (ops.foldl applyOp t).InOrder ↔ x ∈ ops.foldl applyOpSet s := by
  induction ops with
  | nil =>
    intro t s h1 h2
    exact ⟨h1, h2⟩
  | cons op rest ih =>
    intro t s h1 h2
    rw [List.foldl_cons, List.foldl_cons]
    cases op with
    | ins k =>
      apply ih
      · exact (Tree.Insert_spec k h1).1
      · intro x
        rw [show applyOp t (Op.ins k) = (t.Insert k).1 from rfl,
          (Tree.Insert_spec k h1).2.2.2.2 x]
        show _ ↔ x ∈ insert k s
        rw [Finset.mem_insert, h2 x]
    | del k =>
      apply ih
      · exact (Tree.Delete_spec k h1).1
      · intro x
        rw [show applyOp t (Op.del k) = (t.Delete k).1 from rfl,
          (Tree.Delete_spec k h1).2.2.2.2 x]
        show _ ↔ x ∈ s.erase k
        rw [Finset.mem_erase, h2 x]
        exact and_comm


/-- In a strictly ascending list the head is a lower bound. -/
theorem pairwise_head_le {l : List α} {m : α}
    (hp : l.Pairwise (· < ·)) (hl : l.head? = some m) :
    ∀ x ∈ l, m ≤ x := by
  cases l with
  | nil => cases hl
  | cons a tl =>
    have ham : a = m := by
      simpa using hl
    subst ham
    rw [List.pairwise_cons] at hp
    intro x hx
    rcases List.mem_cons.mp hx with rfl | hx2
    · exact le_refl x
    · exact le_of_lt (hp.1 x hx2)

/-- In a strictly ascending list the last element is an upper bound. -/
theorem pairwise_getLast_ge :
    ∀ {l : List α} {m : α}, l.Pairwise (· < ·) → l.getLast? = some m →
      ∀ x ∈ l, x ≤ m := by
  intro l
  induction l with
  | nil => intro m _ hl; cases hl
  | cons a tl ih =>
    intro m hp hl x hx
    rw [List.pairwise_cons] at hp
    cases tl with
    | nil =>
      have hxa : x = a := List.mem_singleton.mp hx
      have ham : a = m := by simpa using hl
      rw [hxa, ham]
    | cons b tb =>
      rw [List.getLast?_cons_cons] at hl
      rcases List.mem_cons.mp hx with rfl | hx2
      · have hmmem : m ∈ b :: tb := by
          obtain ⟨hne, heq⟩ :=
            List.mem_getLast?_eq_getLast (show m ∈ (b :: tb).getLast? by rw [hl]; rfl)
          rw [heq]
          exact List.getLast_mem hne
        exact le_of_lt (hp.1 m hmmem)
      · exact ih hp.2 hl x hx2

/-- Facade-level specification of `Min` on an invariant tree. -/
theorem Tree.Min_spec {t : Tree α} (h : TreeInv t) :
    (t.Min.2 = true ↔ t.InOrder = []) ∧
    (t.InOrder ≠ [] →
      t.Min.2 = false ∧ t.Min.1 = t.InOrder.head? ∧
      ∃ mk, t.Min.1 = some mk ∧ mk ∈ t.InOrder ∧ ∀ x ∈ t.InOrder, mk ≤ x) := by
  obtain ⟨hH, hB, hSo, hSz⟩ := h
  rcases ht : t.root with _ | ⟨k, l, r, hh⟩
  · have hio : t.InOrder = [] := by
      rw [Tree.InOrder, ht]; rfl
    constructor
    · simp only [Tree.Min, ht, hio]
    · intro hcon; exact absurd hio hcon
  · obtain ⟨mk, mr, mh, rest, hmin, hin⟩ :=
      subtreeMin_spec (show (treeNode.node k l r hh : treeNode α) ≠ .nil by simp)
    have hio : t.InOrder = mk :: rest := by
      rw [Tree.InOrder, ht, hin]
    have hres : t.Min = (some mk, false) := by
      simp only [Tree.Min, ht, hmin]
    constructor
    · rw [hres, hio]
      simp
    · intro _
      refine ⟨by rw [hres], by rw [hres, hio]; rfl, mk, by rw [hres], ?_, ?_⟩
      · rw [hio]; exact List.mem_cons_self mk rest
      · intro x hx
        refine pairwise_head_le hSo ?_ x hx
        rw [hio]
        rfl

/-- Facade-level specification of `Max` on an invariant tree. -/
theorem Tree.Max_spec {t : Tree α} (h : TreeInv t) :
    (t.Max.2 = true ↔ t.InOrder = []) ∧
    (t.InOrder ≠ [] →
      t.Max.2 = false ∧ t.Max.1 = t.InOrder.getLast? ∧
      ∃ mk, t.Max.1 = some mk ∧ mk ∈ t.InOrder ∧ ∀ x ∈ t.InOrder, x ≤ mk) := by
  obtain ⟨hH, hB, hSo, hSz⟩ := h
  rcases ht : t.root with _ | ⟨k, l, r, hh⟩
  · have hio : t.InOrder = [] := by
      rw [Tree.InOrder, ht]; rfl
    constructor
    · simp only [Tree.Max, ht, hio]
    · intro hcon; exact absurd hio hcon
  · obtain ⟨mk, ml, mh, hmax, hlast⟩ :=
      subtreeMax_spec (show (treeNode.node k l r hh : treeNode α) ≠ .nil by simp)
    have hio : t.InOrder = subtreeInOrder (.node k l r hh) := by
      rw [Tree.InOrder, ht]
    have hres : t.Max = (some mk, false) := by
      simp only [Tree.Max, ht, hmax]
    constructor
    · rw [hres, hio]
      simp [inorder_ne_nil]
    · intro _
      refine ⟨by rw [hres], by rw [hres, hio, hlast], mk, by rw [hres], ?_, ?_⟩
      · rw [hio]
        obtain ⟨hne, heq⟩ :=
          List.mem_getLast?_eq_getLast
            (show mk ∈ (subtreeInOrder (.node k l r hh)).getLast? by rw [hlast]; rfl)
        rw [heq]
        exact List.getLast_mem hne
      · intro x hx
        refine pairwise_getLast_ge hSo ?_ x hx
        rw [hio]
        exact hlast

/-- The Fibonacci lower bound on the number of keys of a height-balanced
subtree: `fib (height + 2) ≤ size + 1`. -/
theorem fib_height_le_size {t : treeNode α} (hH : HeightsOk t) (hB : Balanced t) :
    Nat.fib ((height t).toNat + 2) ≤ (subtreeInOrder t).length + 1 := by
  induction t with
  | nil => simp [Nat.fib]
  | node k l r hh ihl ihr =>
    rw [heightsOk_node] at hH
    obtain ⟨hheq, hH_l, hH_r⟩ := hH
    rw [balanced_node] at hB
    obtain ⟨hlrbal, hB_l, hB_r⟩ := hB
    have hl0 : 0 ≤ height l := height_nonneg hH_l
    have hr0 : 0 ≤ height r := height_nonneg hH_r
    have ihl' := ihl hH_l hB_l
    have ihr' := ihr hH_r hB_r
    simp only [height_node, inorder_node, List.length_append, List.length_cons]
    rcases le_total (height l) (height r) with hc | hc
    · have h1 : hh.toNat = (height r).toNat + 1 := by omega
      rw [h1]
      have h2 : Nat.fib ((height r).toNat + 1 + 2) =
          Nat.fib ((height r).toNat + 1) + Nat.fib ((height r).toNat + 2) :=
        Nat.fib_add_two
      have h3 : Nat.fib ((height r).toNat + 1) ≤ Nat.fib ((height l).toNat + 2) :=
        Nat.fib_mono (by omega)
      omega
    · have h1 : hh.toNat = (height l).toNat + 1 := by omega
      rw [h1]
      have h2 : Nat.fib ((height l).toNat + 1 + 2) =
          Nat.fib ((height l).toNat + 1) + Nat.fib ((height l).toNat + 2) :=
        Nat.fib_add_two
      have h3 : Nat.fib ((height l).toNat + 1) ≤ Nat.fib ((height r).toNat + 2) :=
        Nat.fib_mono (by omega)
      omega

theorem one_lt_phiR : 1 < phiR := by
  have h5 : Real.sqrt 5 ^ 2 = 5 := Real.sq_sqrt (by norm_num)
  have h0 : 0 ≤ Real.sqrt 5 := Real.sqrt_nonneg 5
  unfold phiR
  nlinarith

theorem phiR_sq : phiR ^ 2 = phiR + 1 := by
  have h5 : Real.sqrt 5 ^ 2 = 5 := Real.sq_sqrt (by norm_num)
  unfold phiR
  field_simp
  nlinarith [h5]

/-- The golden ratio bound on Fibonacci numbers. -/
theorem phiR_pow_le_fib : ∀ n : ℕ, phiR ^ n ≤ (Nat.fib (n + 2) : ℝ) := by
  intro n
  induction n using Nat.twoStepInduction with
  | zero => simp
  | one =>
    have h5 : Real.sqrt 5 ^ 2 = 5 := Real.sq_sqrt (by norm_num)
    have h0 : 0 ≤ Real.sqrt 5 := Real.sqrt_nonneg 5
    have : Nat.fib 3 = 2 := rfl
    rw [pow_one]
    unfold phiR
    rw [show ((1:ℕ) + 2) = 3 from rfl, this]
    push_cast
    nlinarith
  | more n ih1 ih2 =>
    have hpos : 0 ≤ phiR ^ n := le_of_lt (pow_pos (lt_trans one_pos one_lt_phiR) n)
    have hstep : phiR ^ (n + 2) = phiR ^ (n + 1) + phiR ^ n := by
      have : phiR ^ (n + 2) = phiR ^ n * phiR ^ 2 := by ring
      rw [this, phiR_sq]
      ring
    have hfib : Nat.fib (n + 2 + 2) = Nat.fib (n + 2) + Nat.fib (n + 1 + 2) :=
      Nat.fib_add_two
    rw [hstep, hfib]
    push_cast
    linarith


@[simp]
theorem perfectT_nil {e : Nat} : PerfectT (.nil : treeNode α) e ↔ e = 0 := Iff.rfl

theorem perfectT_node_zero {k : α} {l r : treeNode α} {hh : Int} :
    ¬ PerfectT (.node k l r hh) 0 := id

@[simp]
theorem perfectT_node_succ {k : α} {l r : treeNode α} {hh : Int} {e : Nat} :
    PerfectT (.node k l r hh) (e + 1) ↔
      hh = (e : Int) + 1 ∧ PerfectT l e ∧ PerfectT r e := Iff.rfl

/-- A perfect subtree of height `e` has consistent cached heights, cached
height `e`, and exactly `2 ^ e - 1` keys. -/
theorem perfectT_facts : ∀ {t : treeNode α} {e : Nat}, PerfectT t e →
    height t = (e : Int) ∧ HeightsOk t ∧ (subtreeInOrder t).length = 2 ^ e - 1 := by
  intro t
  induction t with
  | nil =>
    intro e he
    rw [perfectT_nil] at he
    subst he
    exact ⟨rfl, trivial, rfl⟩
  | node k l r hh ihl ihr =>
    intro e he
    cases e with
    | zero => exact absurd he perfectT_node_zero
    | succ e2 =>
      rw [perfectT_node_succ] at he
      obtain ⟨hhh, hpl, hpr⟩ := he
      obtain ⟨hl1, hl2, hl3⟩ := ihl hpl
      obtain ⟨hr1, hr2, hr3⟩ := ihr hpr
      refine ⟨?_, ?_, ?_⟩
      · rw [height_node, hhh]
        push_cast
        ring
      · rw [heightsOk_node]
        refine ⟨?_, hl2, hr2⟩
        rw [hl1, hr1, hhh]
        simp
        ring
      · rw [inorder_node]
        simp only [List.length_append, List.length_cons, hl3, hr3]
        have h1 : 1 ≤ 2 ^ e2 := Nat.one_le_two_pow
        rw [pow_succ]
        omega

/-- Inserting a fresh key into a perfect subtree always succeeds and grows
the cached height by exactly one: the path ends at a leaf of the lowest
level and no rotation fires. -/
theorem perfect_insert_grows : ∀ {t : treeNode α} {e : Nat} {key : α},
    PerfectT t e → key ∉ subtreeInOrder t →
    (subtreeInsertNode t key).2 = false ∧
    height (subtreeInsertNode t key).1 = (e : Int) + 1 := by
  intro t
  induction t with
  | nil =>
    intro e key he _
    rw [perfectT_nil] at he
    subst he
    exact ⟨rfl, by simp [subtreeInsertNode]⟩
  | node k l r hh ihl ihr =>
    intro e key he hmem
    cases e with
    | zero => exact absurd he perfectT_node_zero
    | succ e2 =>
      rw [perfectT_node_succ] at he
      obtain ⟨hhh, hpl, hpr⟩ := he
      obtain ⟨hl1, _, _⟩ := perfectT_facts hpl
      obtain ⟨hr1, _, _⟩ := perfectT_facts hpr
      rw [inorder_node] at hmem
      simp only [List.mem_append, List.mem_cons, not_or] at hmem
      obtain ⟨hnl, hnk, hnr⟩ := hmem
      rcases lt_trichotomy key k with hlt | heq | hgt
      · obtain ⟨ie, ih⟩ := ihl hpl hnl
        have hres : subtreeInsertNode (.node k l r hh) key =
            (insertFixup key k (subtreeInsertNode l key).1 r,
             (subtreeInsertNode l key).2) := by
          simp only [subtreeInsertNode, if_pos hlt]
        rw [hres]
        refine ⟨ie, ?_⟩
        rw [insertFixup_noRot (by omega) (by omega), height_node]
        push_cast
        omega
      · exact absurd heq hnk
      · have hnlt : ¬ key < k := not_lt.mpr (le_of_lt hgt)
        have hne : ¬ key = k := ne_of_gt hgt
        obtain ⟨ie, ih⟩ := ihr hpr hnr
        have hres : subtreeInsertNode (.node k l r hh) key =
            (insertFixup key k l (subtreeInsertNode r key).1,
             (subtreeInsertNode r key).2) := by
          simp only [subtreeInsertNode, if_neg hnlt, if_neg hne]
        rw [hres]
        refine ⟨ie, ?_⟩
        rw [insertFixup_noRot (by omega) (by omega), height_node]
        push_cast
        omega

/-- Change-of-base bookkeeping: `logb 2 x / logb 2 phiR` is the base-`phiR`
logarithm of `x`. -/
theorem logb_two_div_logb_two_phiR (x : ℝ) :
    Real.logb 2 x / Real.logb 2 phiR = Real.log x / Real.log phiR := by
  have h2 : Real.log 2 ≠ 0 := ne_of_gt (Real.log_pos (by norm_num))
  have hp : Real.log phiR ≠ 0 := ne_of_gt (Real.log_pos one_lt_phiR)
  rw [Real.logb, Real.logb]
  field_simp

/-- From the Fibonacci bound to the logarithmic bound of the spec: a height
`h` with `fib (h + 2) ≤ n + 1` keys satisfies
`h ≤ logb 2 (n + 2) / logb 2 phiR` (which is `1.4404... * log2 (n + 2)`). -/
theorem height_le_logb {n h : ℕ} (hfib : Nat.fib (h + 2) ≤ n + 1) :
    (h : ℝ) ≤ Real.logb 2 ((n : ℝ) + 2) / Real.logb 2 phiR := by
  have hphi : 1 < phiR := one_lt_phiR
  have hlogphi : 0 < Real.log phiR := Real.log_pos hphi
  have h1 : phiR ^ h ≤ (n : ℝ) + 2 := by
    refine le_trans (phiR_pow_le_fib h) ?_
    have : (Nat.fib (h + 2) : ℝ) ≤ (n : ℝ) + 1 := by
      exact_mod_cast hfib
    linarith
  have h2 : (h : ℝ) * Real.log phiR ≤ Real.log ((n : ℝ) + 2) := by
    rw [← Real.log_pow]
    exact Real.log_le_log (pow_pos (lt_trans one_pos hphi) h) h1
  rw [logb_two_div_logb_two_phiR, le_div_iff₀ hlogphi]
  exact h2

/-- A tree whose traversal holds exactly one key is a single node of cached
height 1. -/
theorem height_of_single {t : treeNode α} (hH : HeightsOk t)
    (hlen : (subtreeInOrder t).length = 1) : height t = 1 := by
  cases t with
  | nil => simp at hlen
  | node k l r hh =>
    rw [heightsOk_node] at hH
    obtain ⟨hheq, hH_l, hH_r⟩ := hH
    rw [inorder_node] at hlen
    simp only [List.length_append, List.length_cons] at hlen
    have hl : subtreeInOrder l = [] := List.length_eq_zero.mp (by omega)
    have hr : subtreeInOrder r = [] := List.length_eq_zero.mp (by omega)
    have hl0 : height l = 0 := by
      cases l with
      | nil => rfl
      | node a b c d => exact absurd hl inorder_ne_nil
    have hr0 : height r = 0 := by
      cases r with
      | nil => rfl
      | node a b c d => exact absurd hr inorder_ne_nil
    rw [height_node, hheq, hl0, hr0]
    simp


/-! ### Claims -/

/-- C1: starting from a new empty tree, after every sequence of `Insert` and
`Delete` calls (regardless of which calls succeeded or failed), every node
reachable from the root satisfies the per-node invariant: its cached height
equals `1 + max (height left) (height right)` (the `HeightsOk` predicate)
and its balance factor `height left - height right` lies in `{-1, 0, 1}`
(the `Balanced` predicate). -/
theorem claim_C1 {t : Tree α} (h : Reachable t) :
    HeightsOk t.root ∧ Balanced t.root :=
  ⟨(reachable_treeInv h).1, (reachable_treeInv h).2.1⟩

theorem claim_C1_witness :
    HeightsOk ((((NewTree : Tree Int).Insert 2).1.Insert 1).1.Delete 2).1.root ∧
    Balanced ((((NewTree : Tree Int).Insert 2).1.Insert 1).1.Delete 2).1.root :=
  claim_C1 (Reachable.del (Reachable.ins (Reachable.ins Reachable.new)))

/-- C2: after any sequence of `Insert`/`Delete` calls from a new empty tree,
`InOrder` returns exactly the set of keys successfully inserted and not
subsequently successfully deleted (the reference set `modelRun`, where an
insert adds the key exactly when absent and a delete removes it exactly
when present), in strictly ascending order.  The `LinearOrder` instance is
the claim's assumption that `Equal`/`Less` form a consistent strict total
order. -/
theorem claim_C2 (ops : List (Op α)) :
    (runOps ops).InOrder.Sorted (· < ·) ∧
    ∀ x, x ∈ (runOps ops).InOrder ↔ x ∈ modelRun ops := by
  have h := foldl_applyOp_spec ops NewTree ∅ treeInv_new
    (by intro x; constructor
        · intro hx; exact absurd hx (List.not_mem_nil x)
        · intro hx; exact absurd hx (Finset.not_mem_empty x))
  exact ⟨h.1.2.2.1, h.2⟩

/-- C3: for every reachable tree and key, `Insert` reports the duplicate-key
error exactly when the key is already stored; on that error the tree is
returned structurally identical (same root, keys, heights and size
counter); on success the key is stored and the size counter is incremented
exactly once. -/
theorem claim_C3 {t : Tree α} (h : Reachable t) (k : α) :
    ((t.Insert k).2 = true ↔ k ∈ t.InOrder) ∧
    ((t.Insert k).2 = true → (t.Insert k).1 = t) ∧
    ((t.Insert k).2 = false →
      k ∈ (t.Insert k).1.InOrder ∧ (t.Insert k).1.Size = t.Size + 1) := by
  obtain ⟨h1, h2, h3, h4, h5⟩ := Tree.Insert_spec k (reachable_treeInv h)
  refine ⟨h2, h3, ?_⟩
  intro he
  obtain ⟨hs, _, hk⟩ := h4 he
  exact ⟨hk, hs⟩

theorem claim_C3_witness :
    Reachable ((NewTree : Tree Int).Insert 1).1 ∧
    (((((NewTree : Tree Int).Insert 1).1.Insert 1).2 = true ↔
        (1 : Int) ∈ ((NewTree : Tree Int).Insert 1).1.InOrder) ∧
     ((((NewTree : Tree Int).Insert 1).1.Insert 1).2 = true →
        (((NewTree : Tree Int).Insert 1).1.Insert 1).1 = ((NewTree : Tree Int).Insert 1).1) ∧
     ((((NewTree : Tree Int).Insert 1).1.Insert 1).2 = false →
        (1 : Int) ∈ (((NewTree : Tree Int).Insert 1).1.Insert 1).1.InOrder ∧
        (((NewTree : Tree Int).Insert 1).1.Insert 1).1.Size =
          ((NewTree : Tree Int).Insert 1).1.Size + 1)) :=
  ⟨Reachable.ins Reachable.new, claim_C3 (Reachable.ins Reachable.new) 1⟩

/-- C4: for every reachable tree and key, `Delete` reports the key-not-found
error exactly when the key is not stored; on that error the tree and the
size counter are returned unchanged; on success the key is removed and the
size counter is decremented exactly once. -/
theorem claim_C4 {t : Tree α} (h : Reachable t) (k : α) :
    ((t.Delete k).2 = true ↔ k ∉ t.InOrder) ∧
    ((t.Delete k).2 = true → (t.Delete k).1 = t) ∧
    ((t.Delete k).2 = false →
      k ∉ (t.Delete k).1.InOrder ∧
      (∀ x, x ∈ (t.Delete k).1.InOrder ↔ x ∈ t.InOrder ∧ x ≠ k) ∧
      (t.Delete k).1.Size = t.Size - 1) := by
  obtain ⟨h1, h2, h3, h4, h5⟩ := Tree.Delete_spec k (reachable_treeInv h)
  refine ⟨h2, h3, ?_⟩
  intro he
  obtain ⟨hs, _, hk⟩ := h4 he
  exact ⟨hk, h5, hs⟩

theorem claim_C4_witness :
    Reachable ((NewTree : Tree Int).Insert 1).1 ∧
    (((((NewTree : Tree Int).Insert 1).1.Delete 2).2 = true ↔
        (2 : Int) ∉ ((NewTree : Tree Int).Insert 1).1.InOrder) ∧
     ((((NewTree : Tree Int).Insert 1).1.Delete 2).2 = true →
        (((NewTree : Tree Int).Insert 1).1.Delete 2).1 = ((NewTree : Tree Int).Insert 1).1) ∧
     ((((NewTree : Tree Int).Insert 1).1.Delete 2).2 = false →
        (2 : Int) ∉ (((NewTree : Tree Int).Insert 1).1.Delete 2).1.InOrder ∧
        (∀ x, x ∈ (((NewTree : Tree Int).Insert 1).1.Delete 2).1.InOrder ↔
          x ∈ ((NewTree : Tree Int).Insert 1).1.InOrder ∧ x ≠ 2) ∧
        (((NewTree : Tree Int).Insert 1).1.Delete 2).1.Size =
          ((NewTree : Tree Int).Insert 1).1.Size - 1)) :=
  ⟨Reachable.ins Reachable.new, claim_C4 (Reachable.ins Reachable.new) 2⟩

/-- C5: for every reachable tree and key `k` not stored in it, inserting `k`
and then immediately deleting `k` yields a tree with the same size counter
and the same in-order key sequence as before the insert. -/
theorem claim_C5 {t : Tree α} (h : Reachable t) (k : α) (hk : k ∉ t.InOrder) :
    (((t.Insert k).1.Delete k).1.Size = t.Size ∧
     ((t.Insert k).1.Delete k).1.InOrder = t.InOrder) := by
  have hinv := reachable_treeInv h
  obtain ⟨i1, i2, i3, i4, i5⟩ := Tree.Insert_spec k hinv
  have herr : (t.Insert k).2 = false := by
    cases hb : (t.Insert k).2
    · rfl
    · exact absurd (i2.mp hb) hk
  obtain ⟨hs1, hs2, hs3⟩ := i4 herr
  obtain ⟨d1, d2, d3, d4, d5⟩ := Tree.Delete_spec k i1
  have derr : ((t.Insert k).1.Delete k).2 = false := by
    cases hb : ((t.Insert k).1.Delete k).2
    · rfl
    · exact absurd hs3 (d2.mp hb)
  obtain ⟨ds1, ds2, ds3⟩ := d4 derr
  constructor
  · show (((t.Insert k).1.Delete k).1).size = t.size
    rw [ds1, hs1]
    ring
  · refine pairwise_lt_eq_of_mem_iff d1.2.2.1 hinv.2.2.1 ?_
    intro x
    rw [d5 x, i5 x]
    constructor
    · rintro ⟨rfl | hx, hne⟩
      · exact absurd rfl hne
      · exact hx
    · intro hx
      refine ⟨Or.inr hx, ?_⟩
      intro hcon
      rw [hcon] at hx
      exact hk hx

theorem claim_C5_witness :
    Reachable ((NewTree : Tree Int).Insert 1).1 ∧
    (2 : Int) ∉ ((NewTree : Tree Int).Insert 1).1.InOrder ∧
    ((((NewTree : Tree Int).Insert 1).1.Insert 2).1.Delete 2).1.Size =
      ((NewTree : Tree Int).Insert 1).1.Size ∧
    ((((NewTree : Tree Int).Insert 1).1.Insert 2).1.Delete 2).1.InOrder =
      ((NewTree : Tree Int).Insert 1).1.InOrder :=
  ⟨Reachable.ins Reachable.new, by decide,
    claim_C5 (Reachable.ins Reachable.new) 2 (by decide)⟩

/-- C6: `Min` and `Max` fail with the empty-tree error exactly when the tree
stores no keys; on a non-empty reachable tree both succeed, `Min` returning
the smallest stored key and `Max` the largest. -/
theorem claim_C6 {t : Tree α} (h : Reachable t) :
    (t.Min.2 = true ↔ t.InOrder = []) ∧
    (t.Max.2 = true ↔ t.InOrder = []) ∧
    (t.InOrder ≠ [] →
      (∃ mk, t.Min = (some mk, false) ∧ mk ∈ t.InOrder ∧ ∀ x ∈ t.InOrder, mk ≤ x) ∧
      (∃ mx, t.Max = (some mx, false) ∧ mx ∈ t.InOrder ∧ ∀ x ∈ t.InOrder, x ≤ mx)) := by
  obtain ⟨hm1, hm2⟩ := Tree.Min_spec (reachable_treeInv h)
  obtain ⟨hx1, hx2⟩ := Tree.Max_spec (reachable_treeInv h)
  refine ⟨hm1, hx1, ?_⟩
  intro hne
  obtain ⟨he, _, mk, hmk, hmem, hmin⟩ := hm2 hne
  obtain ⟨he2, _, mx, hmx, hmem2, hmax⟩ := hx2 hne
  constructor
  · refine ⟨mk, ?_, hmem, hmin⟩
    have : t.Min = (t.Min.1, t.Min.2) := rfl
    rw [this, hmk, he]
  · refine ⟨mx, ?_, hmem2, hmax⟩
    have : t.Max = (t.Max.1, t.Max.2) := rfl
    rw [this, hmx, he2]

theorem claim_C6_witness :
    Reachable ((((NewTree : Tree Int).Insert 2).1.Insert 1).1.Insert 3).1 ∧
    ((((((NewTree : Tree Int).Insert 2).1.Insert 1).1.Insert 3).1.Min.2 = true ↔
        ((((NewTree : Tree Int).Insert 2).1.Insert 1).1.Insert 3).1.InOrder = []) ∧
     (((((NewTree : Tree Int).Insert 2).1.Insert 1).1.Insert 3).1.Max.2 = true ↔
        ((((NewTree : Tree Int).Insert 2).1.Insert 1).1.Insert 3).1.InOrder = []) ∧
     (((((NewTree : Tree Int).Insert 2).1.Insert 1).1.Insert 3).1.InOrder ≠ [] →
       (∃ mk, ((((NewTree : Tree Int).Insert 2).1.Insert 1).1.Insert 3).1.Min = (some mk, false) ∧
         mk ∈ ((((NewTree : Tree Int).Insert 2).1.Insert 1).1.Insert 3).1.InOrder ∧
         ∀ x ∈ ((((NewTree : Tree Int).Insert 2).1.Insert 1).1.Insert 3).1.InOrder, mk ≤ x) ∧
       (∃ mx, ((((NewTree : Tree Int).Insert 2).1.Insert 1).1.Insert 3).1.Max = (some mx, false) ∧
         mx ∈ ((((NewTree : Tree Int).Insert 2).1.Insert 1).1.Insert 3).1.InOrder ∧
         ∀ x ∈ ((((NewTree : Tree Int).Insert 2).1.Insert 1).1.Insert 3).1.InOrder, x ≤ mx))) :=
  ⟨Reachable.ins (Reachable.ins (Reachable.ins Reachable.new)),
    claim_C6 (Reachable.ins (Reachable.ins (Reachable.ins Reachable.new)))⟩

/-- C7: `Height` is 0 on the empty tree and 1 on a one-key tree; for any
reachable tree with `n` keys, `fib (Height + 2) ≤ n + 1`, equivalently
`Height ≤ logb 2 (n + 2) / logb 2 phiR = 1.4404... * log2 (n + 2)` (the
`~1.44 log2 (n+2)` AVL worst-case bound); and on a perfect tree of
`2 ^ e - 1` keys a successful insert of any new key increases `Height` by
exactly one. -/
theorem claim_C7 :
    ((NewTree : Tree α).Height = 0 ∧
      (∀ t : Tree α, Reachable t → t.InOrder.length = 1 → t.Height = 1)) ∧
    (∀ t : Tree α, Reachable t →
      Nat.fib (t.Height.toNat + 2) ≤ t.InOrder.length + 1 ∧
      (t.Height : ℝ) ≤
        Real.logb 2 ((t.InOrder.length : ℝ) + 2) / Real.logb 2 phiR) ∧
    (∀ (t : Tree α) (e : Nat) (key : α), Reachable t → PerfectT t.root e →
      key ∉ t.InOrder →
      t.InOrder.length = 2 ^ e - 1 ∧
      (t.Insert key).2 = false ∧ (t.Insert key).1.Height = t.Height + 1) := by
  refine ⟨⟨rfl, ?_⟩, ?_, ?_⟩
  · intro t ht hlen
    exact height_of_single (reachable_treeInv ht).1 hlen
  · intro t ht
    obtain ⟨hH, hB, _, _⟩ := reachable_treeInv ht
    have hfib := fib_height_le_size hH hB
    refine ⟨hfib, ?_⟩
    have hnn : 0 ≤ height t.root := height_nonneg hH
    have := height_le_logb hfib
    have hcast : ((height t.root).toNat : ℝ) = ((height t.root : Int) : ℝ) := by
      rw [← Int.toNat_of_nonneg hnn]
      push_cast
      rfl
    rw [hcast] at this
    exact this
  · intro t e key ht hp hkey
    obtain ⟨hh1, hh2, hh3⟩ := perfectT_facts hp
    obtain ⟨hg1, hg2⟩ := perfect_insert_grows hp hkey
    refine ⟨hh3, ?_, ?_⟩
    · show (if (subtreeInsertNode t.root key).2 then _ else _ : Tree α × Bool).2 = false
      rw [hg1]
      rfl
    · have hres : t.Insert key = (⟨(subtreeInsertNode t.root key).1, t.size + 1⟩, false) := by
        simp [Tree.Insert, hg1]
      rw [show (t.Insert key).1.Height = height (t.Insert key).1.root from rfl, hres]
      show height (subtreeInsertNode t.root key).1 = t.Height + 1
      rw [hg2, show t.Height = height t.root from rfl, hh1]

theorem claim_C7_witness :
    Reachable ((NewTree : Tree Int).Insert 5).1 ∧
    ((NewTree : Tree Int).Insert 5).1.InOrder.length = 1 ∧
    ((NewTree : Tree Int).Insert 5).1.Height = 1 ∧
    PerfectT ((NewTree : Tree Int).Insert 5).1.root 1 ∧
    (3 : Int) ∉ ((NewTree : Tree Int).Insert 5).1.InOrder ∧
    (((NewTree : Tree Int).Insert 5).1.Insert 3).2 = false ∧
    (((NewTree : Tree Int).Insert 5).1.Insert 3).1.Height =
      ((NewTree : Tree Int).Insert 5).1.Height + 1 :=
  ⟨Reachable.ins Reachable.new, by decide,
    (claim_C7.1.2) ((NewTree : Tree Int).Insert 5).1 (Reachable.ins Reachable.new) (by decide),
    by decide, by decide,
    ((claim_C7.2.2) ((NewTree : Tree Int).Insert 5).1 1 3 (Reachable.ins Reachable.new)
      (by decide) (by decide)).2.1,
    ((claim_C7.2.2) ((NewTree : Tree Int).Insert 5).1 1 3 (Reachable.ins Reachable.new)
      (by decide) (by decide)).2.2⟩

/-- C8: on every reachable tree, the checked executions of insertion and
deletion — which return `none` exactly where the Go code would dereference
an absent child in a rotation or a rebalancing guard — agree with the
unchecked ones, so the balance-factor guards guarantee every rotation's
pivot child is present. -/
theorem claim_C8 {t : Tree α} (h : Reachable t) (key : α) :
    subtreeInsertNodeChk t.root key = some (subtreeInsertNode t.root key) ∧
    subtreeDeleteNodeChk t.root key = some (subtreeDeleteNode t.root key) := by
  obtain ⟨hH, hB, hS, _⟩ := reachable_treeInv h
  have hS2 : (subtreeInOrder t.root).Pairwise (· < ·) := hS
  constructor
  · by_cases hm : key ∈ subtreeInOrder t.root
    · obtain ⟨e1, e2⟩ := subtreeInsertNode_dup hH hB hS2 hm
      rw [e1, e2]
    · exact (subtreeInsertNode_fresh hH hB hS2 hm).2.2.2.2.2.2.2
  · by_cases hm : key ∈ subtreeInOrder t.root
    · exact (subtreeDeleteNode_found hH hB hS2 hm).2.2.2.2.2.2.2
    · obtain ⟨e1, e2⟩ := subtreeDeleteNode_notfound hH hB hS2 hm
      rw [e1, e2]

theorem claim_C8_witness :
    Reachable ((((NewTree : Tree Int).Insert 2).1.Insert 1).1.Insert 3).1 ∧
    (subtreeInsertNodeChk ((((NewTree : Tree Int).Insert 2).1.Insert 1).1.Insert 3).1.root 4 =
      some (subtreeInsertNode ((((NewTree : Tree Int).Insert 2).1.Insert 1).1.Insert 3).1.root 4) ∧
     subtreeDeleteNodeChk ((((NewTree : Tree Int).Insert 2).1.Insert 1).1.Insert 3).1.root 4 =
      some (subtreeDeleteNode ((((NewTree : Tree Int).Insert 2).1.Insert 1).1.Insert 3).1.root 4)) :=
  ⟨Reachable.ins (Reachable.ins (Reachable.ins Reachable.new)),
    claim_C8 (Reachable.ins (Reachable.ins (Reachable.ins Reachable.new))) 4⟩

/-- C9: for every non-empty reachable tree, `Min` returns the first element
of the `InOrder` sequence and `Max` returns its last element. -/
theorem claim_C9 {t : Tree α} (h : Reachable t) (hne : t.InOrder ≠ []) :
    t.Min.1 = t.InOrder.head? ∧ t.Max.1 = t.InOrder.getLast? := by
  obtain ⟨-, hmin⟩ := Tree.Min_spec (reachable_treeInv h)
  obtain ⟨-, hmax⟩ := Tree.Max_spec (reachable_treeInv h)
  exact ⟨(hmin hne).2.1, (hmax hne).2.1⟩

theorem claim_C9_witness :
    Reachable (((NewTree : Tree Int).Insert 2).1.Insert 1).1 ∧
    (((NewTree : Tree Int).Insert 2).1.Insert 1).1.InOrder ≠ [] ∧
    (((NewTree : Tree Int).Insert 2).1.Insert 1).1.Min.1 =
      (((NewTree : Tree Int).Insert 2).1.Insert 1).1.InOrder.head? ∧
    (((NewTree : Tree Int).Insert 2).1.Insert 1).1.Max.1 =
      (((NewTree : Tree Int).Insert 2).1.Insert 1).1.InOrder.getLast? :=
  ⟨Reachable.ins (Reachable.ins Reachable.new), by decide,
    claim_C9 (Reachable.ins (Reachable.ins Reachable.new)) (by decide)⟩

/-- C10: on an empty tree, `InOrder` and `PreOrder` both return the empty
sequence; their return type carries no error value at all (unlike
`Min`/`Max`, whose results pair the key with an error flag), so no error
can be signalled. -/
theorem claim_C10 {t : Tree α} (h : t.root = .nil) :
    t.InOrder = [] ∧ t.PreOrder = [] := by
  rw [Tree.InOrder, Tree.PreOrder, h]
  exact ⟨rfl, rfl⟩

theorem claim_C10_witness :
    (NewTree : Tree Int).root = .nil ∧
    (NewTree : Tree Int).InOrder = [] ∧ (NewTree : Tree Int).PreOrder = [] :=
  ⟨rfl, claim_C10 rfl⟩

end goavl
